import Mathlib

/-!
Verification development for the trace-Lora repository.

The repository has three Python source files sharing one pipeline:
`transform4.py` builds a dependency graph from spans and serializes it
(`build_dependency_graph`, `generate_sequence`, `format_edge`), while
`trace_evol.py` and `build_balanced_testset.py` each contain a copy of the
statistical annotator `parse_trace_and_stats`.

This file gives a shallow embedding of those functions.  Text is modelled as
`List Char` (Python `str`), integers as `Nat`/`Int` (Python `int` is
unbounded), and the float expressions `0.95 * len`, `mx / total` and
`timedelta.total_seconds()` are modelled exactly over `ℚ`/`Nat` (for the
list lengths, timestamps and durations the program can encounter these float
computations are exact, so the exact model is faithful).
-/

/-! ### Python string primitives -/

/-- The characters `str.splitlines` treats as line boundaries. -/
def isLineTerm (c : Char) : Bool :=
  ['\n', '\r', '\x0b', '\x0c', '\x1c', '\x1d', '\x1e', '\x85',
   '\u2028', '\u2029'].contains c

/-- Python's whitespace class (`str.isspace`, `\s` in a pattern, and the set
stripped by `str.strip`/`str.rstrip`). -/
def pyIsSpace (c : Char) : Bool :=
  isLineTerm c ||
  [' ', '\t', '\x1f', '\xa0', '\u1680', '\u2000', '\u2001', '\u2002',
   '\u2003', '\u2004', '\u2005', '\u2006', '\u2007', '\u2008', '\u2009',
   '\u200a', '\u202f', '\u205f', '\u3000'].contains c

/-- Worker for `pySplitlines`: `acc` holds the current line reversed. -/
def splitAux : List Char → List Char → List (List Char)
  | [], acc => if acc.isEmpty then [] else [acc.reverse]
  | '\r' :: '\n' :: rest, acc => acc.reverse :: splitAux rest []
  | c :: rest, acc =>
    if isLineTerm c then acc.reverse :: splitAux rest []
    else splitAux rest (c :: acc)

/-- Python `str.splitlines()`: split at line boundaries, `\r\n` counting as
one boundary, with no trailing empty line. -/
def pySplitlines (s : List Char) : List (List Char) := splitAux s []

/-- `startsWithSeq needle hay`: `hay` begins with `needle` (exact chars). -/
def startsWithSeq : List Char → List Char → Bool
  | [], _ => true
  | _ :: _, [] => false
  | a :: as, b :: bs => a = b && startsWithSeq as bs

/-- `containsSeq needle hay`: Python `needle in hay` (substring test). -/
def containsSeq (needle : List Char) : List Char → Bool
  | [] => needle.isEmpty
  | c :: t => startsWithSeq needle (c :: t) || containsSeq needle t

/-- `hay` ends with `needle` (Python `str.endswith`). -/
def endsWithSeq (needle hay : List Char) : Bool :=
  startsWithSeq needle.reverse hay.reverse

/-- Python `str.rstrip()`: drop trailing whitespace. -/
def rstrip (s : List Char) : List Char := (s.reverse.dropWhile pyIsSpace).reverse

/-- Decimal value of a digit run (the regex group `(\d+)` fed to `int`). -/
def natOfDigits (ds : List Char) : Nat :=
  ds.foldl (fun a c => 10 * a + (c.toNat - '0'.toNat)) 0

/-- Digit-printing worker (fuel-driven so it reduces in the kernel). -/
def natStrAux : Nat → Nat → List Char → List Char
  | 0, _, acc => acc
  | fuel + 1, n, acc =>
    if n = 0 then acc
    else natStrAux fuel (n / 10) (Char.ofNat (48 + n % 10) :: acc)

/-- Decimal rendering of a natural number, as Python `str` renders it. -/
def natStr (n : Nat) : List Char :=
  if n = 0 then ['0'] else natStrAux (n + 1) n []

/-- Decimal rendering of an integer, as Python `str` renders it. -/
def intStr (i : Int) : List Char :=
  if i < 0 then '-' :: natStr i.natAbs else natStr i.toNat

/-! ### The start/finish pattern

`START_FINISH_RE = starts\s+at\s*(\d+)\s*ms.*?finishes\s+at\s*(\d+)\s*ms`
compiled with `re.IGNORECASE` and used through `re.search`.  At a fixed
position each half of the pattern matches deterministically (maximal
whitespace and digit runs: shorter choices always fail on the following
literal), and `re.search` takes the leftmost position where the `starts`
half matches and is followed by a `finishes` half; the lazy `.*?` gap picks
the earliest such `finishes` half. -/

/-- Case-insensitive literal match at the head, returning the rest. -/
def matchLit : List Char → List Char → Option (List Char)
  | [], s => some s
  | _ :: _, [] => none
  | l :: ls, c :: cs => if c.toLower = l.toLower then matchLit ls cs else none

/-- Match `starts\s+at\s*(\d+)\s*ms` at the head; capture the number. -/
def matchStartsAt (s : List Char) : Option (Nat × List Char) :=
  match matchLit "starts".data s with
  | none => none
  | some r1 =>
    let p1 := r1.span pyIsSpace
    if p1.1.isEmpty then none else
    match matchLit "at".data p1.2 with
    | none => none
    | some r2 =>
      let p2 := r2.span pyIsSpace
      let p3 := p2.2.span Char.isDigit
      if p3.1.isEmpty then none else
      let p4 := p3.2.span pyIsSpace
      match matchLit "ms".data p4.2 with
      | none => none
      | some r3 => some (natOfDigits p3.1, r3)

/-- Match `finishes\s+at\s*(\d+)\s*ms` at the head; capture the number. -/
def matchFinishesAt (s : List Char) : Option (Nat × List Char) :=
  match matchLit "finishes".data s with
  | none => none
  | some r1 =>
    let p1 := r1.span pyIsSpace
    if p1.1.isEmpty then none else
    match matchLit "at".data p1.2 with
    | none => none
    | some r2 =>
      let p2 := r2.span pyIsSpace
      let p3 := p2.2.span Char.isDigit
      if p3.1.isEmpty then none else
      let p4 := p3.2.span pyIsSpace
      match matchLit "ms".data p4.2 with
      | none => none
      | some r3 => some (natOfDigits p3.1, r3)

/-- Leftmost match of the `finishes` half (the lazy `.*?` gap). -/
def searchFinishes : List Char → Option Nat
  | [] => none
  | c :: t =>
    match matchFinishesAt (c :: t) with
    | some (n, _) => some n
    | none => searchFinishes t

/-- `START_FINISH_RE.search(line)`: the captured `(start, finish)` pair of
the leftmost full match, if any. -/
def searchStartFinish : List Char → Option (Nat × Nat)
  | [] => none
  | c :: t =>
    match matchStartsAt (c :: t) with
    | some (sv, rest) =>
      match searchFinishes rest with
      | some fv => some (sv, fv)
      | none => searchStartFinish t
    | none => searchStartFinish t

/-! ### The annotator loop body (identical in both source files) -/

/-- One iteration of the `for raw in ...` loop of `parse_trace_and_stats`:
the possibly rewritten line, and the captured `(start, finish)` pair when
the line matched. -/
def annotateLine (raw : List Char) : List Char × Option (Nat × Nat) :=
  if startsWithSeq "[".data raw
      && containsSeq "starts at".data raw
      && containsSeq "finishes at".data raw then
    match searchStartFinish raw with
    | some (s, f) =>
      let dur : Int := max 0 ((f : Int) - (s : Int))
      let line :=
        if endsWithSeq "].".data (rstrip raw) then
          raw.take (raw.length - 2) ++
            (", duration=".data ++ intStr dur ++ " ms].".data)
        else if endsWithSeq "]".data (rstrip raw) then
          raw.take (raw.length - 1) ++
            (", duration=".data ++ intStr dur ++ " ms]".data)
        else
          raw ++ (" (duration=".data ++ intStr dur ++ " ms)".data)
      (line, some (s, f))
    | none => (raw, none)
  else (raw, none)

/-- The whole loop: annotated lines in order, and the captured
`(start, finish)` pairs in encounter order. -/
def scanLines : List (List Char) → List (List Char) × List (Nat × Nat)
  | [] => ([], [])
  | raw :: rest =>
    let r := annotateLine raw
    let t := scanLines rest
    (r.1 :: t.1, match r.2 with | some p => p :: t.2 | none => t.2)

/-- Running minimum of the start values (`earliest` in the loop). -/
def foldEarliest (ms : List (Nat × Nat)) : Option Nat :=
  ms.foldl (fun acc p =>
    match acc with
    | none => some p.1
    | some e => some (min e p.1)) none

/-- Running maximum of the finish values (`latest` in the loop). -/
def foldLatest (ms : List (Nat × Nat)) : Option Nat :=
  ms.foldl (fun acc p =>
    match acc with
    | none => some p.2
    | some l => some (max l p.2)) none

/-- `durations`: `max(0, f - s)` per matched line, in encounter order. -/
def durationsOf (ms : List (Nat × Nat)) : List Int :=
  ms.map (fun p => max 0 ((p.2 : Int) - (p.1 : Int)))

/-- `math.ceil(0.95 * n)` (exact for every feasible list length). -/
def ceil95 (n : Nat) : Nat := (95 * n + 99) / 100

/-- Python `int(q)`: truncation toward zero. -/
def pyInt (q : ℚ) : Int := if 0 ≤ q then ⌊q⌋ else ⌈q⌉

/-- `⌊log₂ n⌋` by repeated halving; `fuel` bounds the bit length.  Every
use in this file passes `fuel = 2400` and an argument below `2 ^ 2400`
(see `pyFloatDivNat`: quotients past the double overflow threshold are
rejected before this is reached). -/
def log2p : Nat → Nat → Nat
  | 0, _ => 0
  | fuel + 1, n => if n < 2 then 0 else log2p fuel (n / 2) + 1

/-- Round half to even of the fraction `N / D` (`D > 0`), the rounding
mode of IEEE-754 binary arithmetic. -/
def rhe (N D : Nat) : Nat :=
  let q := N / D
  let r := N % D
  if 2 * r < D then q
  else if D < 2 * r then q + 1
  else if q % 2 = 0 then q else q + 1

/-- Mantissa `m` and exponent `e` with `m * 2 ^ e` the IEEE-754 binary64
value nearest `S / L` (round to nearest, ties to even; the grid is
clamped at `2 ^ (-1074)`, the subnormal spacing), for `S / L` below the
overflow threshold.  `m` is left unnormalised: a carry past `2 ^ 53`
simply yields the same real value `m * 2 ^ e`. -/
def floatMantExp (S L : Nat) : Nat × Int :=
  let il : Int := (log2p 2400 (S * 2 ^ 1200 / L) : Int) - 1200
  let e : Int := max (-1074) (il - 52)
  let m : Nat := if 0 ≤ e then rhe S (L * 2 ^ e.toNat) else rhe (S * 2 ^ (-e).toNat) L
  (m, e)

/-- The exact rational value `m * 2 ^ e` of a binary64 result. -/
def floatVal (m : Nat) (e : Int) : ℚ :=
  if 0 ≤ e then (((m * 2 ^ e.toNat : Nat) : Int) : ℚ)
  else Rat.divInt (m : Int) ((2 ^ (-e).toNat : Nat) : Int)

/-- CPython float true division `S / L` of nonnegative ints (correctly
rounded, as `int.__truediv__` computes it): the resulting double as its
exact rational value, or `none` for the `OverflowError` raised when the
rounded result is infinite — exactly when
`S / L ≥ 2 ^ 1024 - 2 ^ 970` (the midpoint above the largest double,
which ties-to-even sends to infinity), i.e. `(2^1024 - 2^970) * L ≤ S`. -/
def pyFloatDivNat (S L : Nat) : Option ℚ :=
  if 2 ^ 1024 * L ≤ 2 ^ 970 * L + S then none
  else
    let p := floatMantExp S L
    some (floatVal p.1 p.2)

/-- Python `/` on an int numerator and a nonnegative int denominator:
`ZeroDivisionError` (`none`) on a zero denominator, otherwise the
correctly rounded double with `OverflowError` as `none`; negative
numerators round symmetrically. -/
def pyFloatDiv (S : Int) (L : Nat) : Option ℚ :=
  if L = 0 then none
  else if S < 0 then (pyFloatDivNat S.natAbs L).map (fun q => -q)
  else pyFloatDivNat S.toNat L

/-- The seven statistics of the annotator's header / feature record. -/
@[ext]
structure Stats where
  num_edges : Nat
  total_latency_ms : Int
  max_edge_latency_ms : Int
  mean_edge_latency_ms : Int
  p95_edge_latency_ms : Int
  maxEdgeRatioQ : ℚ
  bottleneck_index : Int
deriving DecidableEq, Repr

/-- Statistics assembly shared by the two annotator copies.  `condV e l`
is the truth value of the source's wall-clock guard when `earliest = e`
and `latest = l` are both set; when either is still `None` both guards
are falsy and the sum fallback is taken.  The mean is
`int(sum(durations)/len(durations))`: float true division, then
truncation; on inputs where that division raises `OverflowError` the
Python function returns nothing at all, and this total rendering puts
the placeholder `0` in the field — `statsCoreChecked` models the raise
itself, and every statement about totality goes through it. -/
def statsCore (condV : Nat → Nat → Bool) (ms : List (Nat × Nat)) : Stats :=
  let durations := durationsOf ms
  let earliest := foldEarliest ms
  let latest := foldLatest ms
  let num_edges := durations.length
  let total : Int :=
    match earliest, latest with
    | some e, some l =>
      if condV e l then max 0 ((l : Int) - (e : Int)) else durations.sum
    | _, _ => durations.sum
  let mx : Int := match durations with | [] => 0 | d :: ds => ds.foldl max d
  let avg : Int :=
    if durations.isEmpty then 0
    else pyInt ((pyFloatDiv durations.sum durations.length).getD 0)
  let vs := List.insertionSort (· ≤ ·) durations
  let p95 : Int :=
    match vs with
    | [] => 0
    | _ :: _ => vs.getD (max 0 (min (vs.length - 1) (ceil95 vs.length - 1))) 0
  let ratioV : ℚ := if total > 0 then (mx : ℚ) / (total : ℚ) else 0
  let bi : Int :=
    if durations.isEmpty then -1 else (durations.findIdx (· == mx) : Int)
  ⟨num_edges, total, mx, avg, p95, ratioV, bi⟩

/-- `trace_evol.py` line 59 tests `earliest and latest and latest>=earliest`:
Python truthiness, so a value of `0` fails the guard. -/
def condTE (e l : Nat) : Bool := (!(e == 0)) && (!(l == 0)) && decide (e ≤ l)

/-- `build_balanced_testset.py` line 60 tests
`earliest is not None and latest is not None and latest >= earliest`. -/
def condBB (e l : Nat) : Bool := decide (e ≤ l)

/-- `parse_trace_and_stats` of `trace_evol.py`: annotated lines and the
seven statistics (the header rendering is omitted; every claim is about
the lines or the statistics). -/
def parse_trace_and_stats (txt : List Char) : List (List Char) × Stats :=
  let scanned := scanLines (pySplitlines txt)
  (scanned.1, statsCore condTE scanned.2)

/-- `build_balanced_testset.py` line 39 keeps a line iff `l.strip()` is
truthy, i.e. the line has a non-whitespace character. -/
def keepLine (l : List Char) : Bool := l.any (fun c => !pyIsSpace c)

/-- `parse_trace_and_stats` of `build_balanced_testset.py`: same loop body,
but blank lines are removed first and the wall-clock guard uses explicit
`is not None` tests. -/
def parse_trace_and_stats_bb (txt : List Char) : List (List Char) × Stats :=
  let scanned := scanLines ((pySplitlines txt).filter keepLine)
  (scanned.1, statsCore condBB scanned.2)

/-! ### transform4.py: spans, dependency graph, serialization -/

/-- The `Span` dataclass fields the core algorithms read.  `start_time` is
the `datetime` in microseconds since the epoch (datetime resolution);
`duration` is the float milliseconds field. -/
structure Span where
  span_id : String
  parent_span_id : Option String
  start_time : Int
  duration : ℚ
  service_name : String
  operation_name : Option String
deriving DecidableEq, Repr

/-- `get_communication_type`. -/
def get_communication_type (op : Option String) : String :=
  match op with
  | none => "UNKNOWN"
  | some o =>
    if containsSeq "HTTP".data o.toUpper.data then "HTTP"
    else if containsSeq "grpc".data o.toLower.data then "GRPC"
    else if containsSeq "DB".data o.toUpper.data
        || containsSeq "SQL".data o.toUpper.data then "DATABASE"
    else "RPC"

/-- The fields of one rendered edge line of `format_edge`. -/
structure EdgeRecord where
  edge_id : String
  source : String
  destination : String
  comm_type : String
  start_ms : Int
  finish_ms : Int
deriving DecidableEq, Repr

/-- `format_edge`, split into its fields;  `start_ms` is
`int(span.start_time.timestamp() * 1000)` and `finish_ms` adds
`int(span.duration)`. -/
def format_edge (span : Span) (parent : Option Span) : EdgeRecord :=
  let start_ms := pyInt (Rat.divInt span.start_time 1000)
  { edge_id := span.span_id
    source := match parent with | some p => p.service_name | none => "Client"
    destination := span.service_name
    comm_type := get_communication_type span.operation_name
    start_ms := start_ms
    finish_ms := start_ms + pyInt span.duration }

/-- The exact text `format_edge` returns. -/
def renderEdge (e : EdgeRecord) : List Char :=
  "[Edge ID is ".data ++ e.edge_id.data ++ ", Source is ".data ++ e.source.data ++
  ", Destination is ".data ++ e.destination.data ++ ", Type is ".data ++
  e.comm_type.data ++ ", Communication starts at ".data ++ intStr e.start_ms ++
  " ms, Communication finishes at ".data ++ intStr e.finish_ms ++ " ms].".data

/-- Edge attribute `type='parent'` or `type='time'`. -/
inductive EdgeType where
  | parent : EdgeType
  | time : EdgeType
deriving DecidableEq, Repr

/-- A `networkx.DiGraph` as the source uses it: nodes in insertion order
with their `span` attribute (absent for nodes created implicitly by
`add_edge`), and at most one edge per ordered pair, in insertion order,
carrying its current `type` attribute. -/
structure Graph where
  nodes : List (String × Option Span)
  edges : List (String × String × EdgeType)
deriving DecidableEq, Repr

def Graph.nodeIds (g : Graph) : List String := g.nodes.map Prod.fst

def Graph.lookupSpan (g : Graph) (id : String) : Option Span :=
  match g.nodes.find? (fun p => p.1 == id) with
  | some (_, s) => s
  | none => none

/-- `graph.add_node(id, span=s)`: a fresh node is appended, an existing
node keeps its position and gets its attribute overwritten. -/
def Graph.addNode (g : Graph) (id : String) (s : Span) : Graph :=
  if g.nodeIds.contains id then
    { g with nodes := g.nodes.map (fun p => if p.1 == id then (id, some s) else p) }
  else { g with nodes := g.nodes ++ [(id, some s)] }

/-- `add_edge` creates missing endpoints as attribute-less nodes. -/
def Graph.ensureNode (g : Graph) (id : String) : Graph :=
  if g.nodeIds.contains id then g else { g with nodes := g.nodes ++ [(id, none)] }

def Graph.hasPair (g : Graph) (u v : String) : Bool :=
  g.edges.any (fun e => e.1 == u && e.2.1 == v)

/-- `graph.add_edge(u, v, type=t)`: a repeated pair keeps its position and
gets its `type` attribute overwritten, a new pair is appended. -/
def Graph.addEdge (g : Graph) (u v : String) (t : EdgeType) : Graph :=
  if ((g.ensureNode u).ensureNode v).hasPair u v then
    { nodes := ((g.ensureNode u).ensureNode v).nodes,
      edges := ((g.ensureNode u).ensureNode v).edges.map
        (fun e => if e.1 == u && e.2.1 == v then (u, v, t) else e) }
  else
    { nodes := ((g.ensureNode u).ensureNode v).nodes,
      edges := ((g.ensureNode u).ensureNode v).edges ++ [(u, v, t)] }

def Graph.empty : Graph := ⟨[], []⟩

/-- `(next.start_time - current.start_time).total_seconds()`: the exact
value of the microsecond difference divided by 10^6, written with
`Rat.divInt` (equal to the field division, see `timeGap_eq_div`). -/
def timeGap (a b : Span) : ℚ := Rat.divInt (b.start_time - a.start_time) 1000000

/-- `sorted(spans, key=lambda s: s.start_time)` — a stable sort. -/
def sortedSpans (spans : List Span) : List Span :=
  List.insertionSort (fun a b => a.start_time ≤ b.start_time) spans

/-- The temporal-adjacency loop over consecutive pairs of the sorted list. -/
def timePass (g : Graph) : List Span → Graph
  | a :: b :: rest =>
    timePass
      (if 0 < timeGap a b ∧ timeGap a b ≤ 2 then
        g.addEdge a.span_id b.span_id .time
      else g)
      (b :: rest)
  | _ => g

/-- `build_dependency_graph`.  The causal pass tests
`if span.parent_span_id and span.parent_span_id in graph.nodes` — Python
truthiness, so an empty-string parent id is skipped. -/
def build_dependency_graph (spans : List Span) : Graph :=
  let g0 := spans.foldl (fun g s => g.addNode s.span_id s) Graph.empty
  let g1 := spans.foldl (fun g s =>
    match s.parent_span_id with
    | some p => if p ≠ "" ∧ g.nodeIds.contains p then g.addEdge p s.span_id .parent else g
    | none => g) g0
  timePass g1 (sortedSpans spans)

/-- Does `v` have an incoming edge from a remaining node? -/
def hasIncomingFrom (g : Graph) (remaining : List String) (v : String) : Bool :=
  g.edges.any (fun e => e.2.1 == v && remaining.contains e.1)

/-- Kahn-style worker: repeatedly emit a remaining node with no incoming
edge from the remaining set; stuck with a nonempty remainder means a
cycle. -/
def topoAux (g : Graph) : Nat → List String → Option (List String)
  | 0, remaining => if remaining.isEmpty then some [] else none
  | fuel + 1, remaining =>
    match remaining.find? (fun v => !hasIncomingFrom g remaining v) with
    | none => if remaining.isEmpty then some [] else none
    | some v => (topoAux g fuel (remaining.erase v)).map (v :: ·)

/-- Models `nx.topological_sort(graph)`: some topological ordering of the
nodes when the graph is acyclic, `none` standing for the
`NetworkXUnfeasible` exception. -/
def topological_sort (g : Graph) : Option (List String) :=
  topoAux g g.nodes.length g.nodeIds

/-- The node order `generate_sequence` uses: the topological order, or on
`NetworkXUnfeasible` the insertion order `list(graph.nodes)` (the cycle
warning is printed on that fallback path). -/
def orderedIds (g : Graph) : List String :=
  match topological_sort g with
  | some l => l
  | none => g.nodeIds

/-- `list(graph.predecessors(v))`: sources of in-edges, in edge insertion
order, with no filtering on the edge type. -/
def Graph.predecessors (g : Graph) (v : String) : List String :=
  (g.edges.filter (fun e => e.2.1 == v)).map (fun e => e.1)

/-- Loop body of `generate_sequence`: `none` models the `KeyError` raised
when a node is missing its `span` attribute. -/
def nodeRecord (g : Graph) (v : String) : Option EdgeRecord :=
  match g.lookupSpan v with
  | none => none
  | some span =>
    match g.predecessors v with
    | [] => some (format_edge span none)
    | p :: _ =>
      match g.lookupSpan p with
      | none => none
      | some ps => some (format_edge span (some ps))

/-- `generate_sequence`, as the list of rendered records. -/
def generate_sequence (g : Graph) : Option (List EdgeRecord) :=
  (orderedIds g).mapM (nodeRecord g)

/-- The actual string list the Python function returns. -/
def generate_sequence_text (g : Graph) : Option (List (List Char)) :=
  (generate_sequence g).map (List.map renderEdge)

/-! ### Exception-aware variant of the annotator

`parse_trace_and_stats` performs a handful of operations that can raise
in Python: `max(durations)`, `vs[idx]` and `durations.index(mx)` when
their non-emptiness guard fails, and the mean's float true division
`sum(durations)/len(durations)`, which raises `ZeroDivisionError` on an
empty list and `OverflowError` whenever the quotient reaches the double
overflow threshold — an error reachable on real input (a matched line
with a 310-digit finish value).  The variant below returns `none`
exactly where the Python code would raise, so the source function
returns normally on an input exactly when the variant returns `some`
there. -/

/-- `statsCore` with each fallible Python operation made explicit. -/
def statsCoreChecked (condV : Nat → Nat → Bool) (ms : List (Nat × Nat)) :
    Option Stats := do
  let durations := durationsOf ms
  let earliest := foldEarliest ms
  let latest := foldLatest ms
  let num_edges := durations.length
  let total : Int :=
    match earliest, latest with
    | some e, some l =>
      if condV e l then max 0 ((l : Int) - (e : Int)) else durations.sum
    | _, _ => durations.sum
  let mx : Int ← if durations.isEmpty then pure 0 else durations.max?
  let avg : Int ←
    if durations.isEmpty then pure 0
    else (pyFloatDiv durations.sum durations.length).map pyInt
  let vs := List.insertionSort (· ≤ ·) durations
  let p95 : Int ←
    if vs.isEmpty then pure 0
    else vs[max 0 (min (vs.length - 1) (ceil95 vs.length - 1))]?
  let ratioV : ℚ := if total > 0 then (mx : ℚ) / (total : ℚ) else 0
  let bi : Int ←
    if durations.isEmpty then pure (-1)
    else (durations.findIdx? (· == mx)).map Int.ofNat
  pure ⟨num_edges, total, mx, avg, p95, ratioV, bi⟩

/-- `trace_evol.py`'s annotator with explicit exception points. -/
def parse_trace_and_stats_checked (txt : List Char) :
    Option (List (List Char) × Stats) :=
  (statsCoreChecked condTE (scanLines (pySplitlines txt)).2).map
    (fun st => ((scanLines (pySplitlines txt)).1, st))

/-- `build_balanced_testset.py`'s annotator with explicit exception points. -/
def parse_trace_and_stats_bb_checked (txt : List Char) :
    Option (List (List Char) × Stats) :=
  (statsCoreChecked condBB (scanLines ((pySplitlines txt).filter keepLine)).2).map
    (fun st => ((scanLines ((pySplitlines txt).filter keepLine)).1, st))

/-- The `(start, finish)` pairs the annotator of `trace_evol.py` extracts. -/
def matchedPairs (txt : List Char) : List (Nat × Nat) :=
  (scanLines (pySplitlines txt)).2

/-- The duration list of `trace_evol.py`'s annotator. -/
def durationsTE (txt : List Char) : List Int := durationsOf (matchedPairs txt)

/-! ### Graph-side predicates -/

/-- Some edge (of either type) from `u` to `v`. -/
def Graph.hasEdge (g : Graph) (u v : String) : Prop := ∃ t, (u, v, t) ∈ g.edges

/-- No directed cycle built from the graph's edges. -/
def Acyclic (g : Graph) : Prop :=
  ∀ a, ¬ Relation.TransGen (fun x y => g.hasEdge x y) a a

/-- The invariants every graph produced by `build_dependency_graph`
satisfies: node ids are unique, edges join existing nodes, every node
carries its `span` attribute. -/
def GraphWF (g : Graph) : Prop :=
  g.nodeIds.Nodup ∧
  (∀ e ∈ g.edges, e.1 ∈ g.nodeIds ∧ e.2.1 ∈ g.nodeIds) ∧
  (∀ v ∈ g.nodeIds, (g.lookupSpan v).isSome)

/-- The causal pass of the Builder adds an edge `(u, v)` exactly when some
span declares `v` as its id and `u` as its truthy parent id present among
the node ids. -/
def causalPair (spans : List Span) (u v : String) : Prop :=
  ∃ s ∈ spans, s.span_id = v ∧ s.parent_span_id = some u ∧ u ≠ "" ∧
    u ∈ spans.map Span.span_id

/-- The temporal pass of the Builder adds an edge `(u, v)` exactly when
`u` and `v` are ids of consecutive spans of the sorted list whose start
gap lies in `(0, 2]` seconds. -/
def temporalPair (spans : List Span) (u v : String) : Prop :=
  ∃ i : Nat, ∃ h : i + 1 < (sortedSpans spans).length,
    ((sortedSpans spans).get ⟨i, by omega⟩).span_id = u ∧
    ((sortedSpans spans).get ⟨i + 1, h⟩).span_id = v ∧
    0 < timeGap ((sortedSpans spans).get ⟨i, by omega⟩)
        ((sortedSpans spans).get ⟨i + 1, h⟩) ∧
    timeGap ((sortedSpans spans).get ⟨i, by omega⟩)
        ((sortedSpans spans).get ⟨i + 1, h⟩) ≤ 2

/-! ### Concrete inputs used by the claim checks -/

/-- Two overlapping edges, the earliest starting at time 0 (the spec's own
worked example for the wall-clock span). -/
def wallclockInput : List Char :=
  ("[A, Communication starts at 0 ms, Communication finishes at 100 ms].\n" ++
   "[B, Communication starts at 50 ms, Communication finishes at 80 ms].").data

/-- Same two overlapping edges, used to compare the two annotator copies. -/
def twinInput : List Char :=
  ("[A starts at 0 ms and finishes at 100 ms].\n" ++
   "[B starts at 50 ms and finishes at 80 ms].").data

/-- One matched line with a nonzero start, and no blank line. -/
def agreeInput : List Char := "[A starts at 3 ms and finishes at 9 ms].".data

/-- One matched line whose finish value is `10 ^ 309`: its duration's
mean exceeds the largest double. -/
def overflowInput : List Char :=
  "[x starts at 0 ms and finishes at 1".data ++
    List.replicate 309 '0' ++ " ms].".data

/-- Three lines, the middle one whitespace-only. -/
def blankInput : List Char := "a\n \nb".data

/-- A matched line with trailing whitespace after its `].` closing. -/
def trailingInput : List Char := "[a starts at 1 ms finishes at 5 ms]. ".data

/-- A matched line ending exactly with `].`. -/
def closedInput : List Char := "[a starts at 1 ms finishes at 2 ms].".data

/-- Four matched lines with durations 10, 20, 30, 40. -/
def quadInput : List Char :=
  ("[a starts at 0 ms finishes at 10 ms].\n" ++
   "[b starts at 0 ms finishes at 20 ms].\n" ++
   "[c starts at 0 ms finishes at 30 ms].\n" ++
   "[d starts at 0 ms finishes at 40 ms].").data

/-- One matched line with duration 50. -/
def singleInput : List Char := "[a starts at 0 ms finishes at 50 ms].".data

/-- Root span at time 0. -/
def spanRootA : Span := ⟨"a", none, 0, 1, "svcA", none⟩

/-- Parentless span starting 1 second after `spanRootA`: only a `time`
edge reaches it. -/
def spanLaterB : Span := ⟨"b", none, 1000000, 1, "svcB", none⟩

/-- Child of `a`, starting 1 second after it: its `parent` edge is
retyped to `time` by the temporal pass. -/
def spanChildB : Span := ⟨"b", some "a", 1000000, 1, "svcB", none⟩

/-- Child of `a`, starting 10 seconds after it: no temporal edge. -/
def spanFarB : Span := ⟨"b", some "a", 10000000, 1, "svcB", none⟩

/-- A span whose id is the empty string. -/
def spanEmptyRoot : Span := ⟨"", none, 0, 1, "svcE", none⟩

/-- A span declaring the empty-string span as its parent. -/
def spanEmptyChild : Span := ⟨"x", some "", 0, 1, "svcX", none⟩

/-- Root span starting 1 second before `spanCycleA`: the `time` edge
`b → a` closes a cycle with the `parent` edge `a → b`. -/
def spanCycleA : Span := ⟨"a", none, 1000000, 1, "svcA", none⟩

/-- Child of `a` for the cycle example. -/
def spanCycleB : Span := ⟨"b", some "a", 0, 1, "svcB", none⟩

/-! ### Decomposition of the Builder's three passes (for the proofs) -/

/-- The node-insertion pass of `build_dependency_graph`. -/
def nodesPass (spans : List Span) : Graph :=
  spans.foldl (fun g s => g.addNode s.span_id s) Graph.empty

/-- One step of the causal (`parent`) pass of `build_dependency_graph`. -/
def causalStep (g : Graph) (s : Span) : Graph :=
  match s.parent_span_id with
  | some p => if p ≠ "" ∧ g.nodeIds.contains p then g.addEdge p s.span_id .parent else g
  | none => g

/-- The causal (`parent`) pass of `build_dependency_graph`. -/
def causalPass (spans : List Span) (g : Graph) : Graph :=
  spans.foldl causalStep g

/-- The edges the causal pass appends, given the (constant) node id list. -/
def causalEdgeList (ids : List String) (spans : List Span) :
    List (String × String × EdgeType) :=
  spans.filterMap (fun s =>
    match s.parent_span_id with
    | some p =>
      if p ≠ "" ∧ ids.contains p then some (p, s.span_id, EdgeType.parent) else none
    | none => none)

/-- The ordered pairs the temporal pass visits with a gap in `(0, 2]`. -/
def timePairList : List Span → List (String × String)
  | a :: b :: rest =>
    (if 0 < timeGap a b ∧ timeGap a b ≤ 2 then [(a.span_id, b.span_id)] else []) ++
      timePairList (b :: rest)
  | _ => []

/-- The effect of the temporal pass on the edge list alone: each visited
pair retypes its existing edge in place or appends a fresh `time` edge. -/
def timeApply : List (String × String × EdgeType) → List (String × String) →
    List (String × String × EdgeType)
  | E, [] => E
  | E, (u, v) :: ps =>
    timeApply
      (if E.any (fun e => e.1 == u && e.2.1 == v) then
        E.map (fun e => if e.1 == u && e.2.1 == v then (u, v, EdgeType.time) else e)
      else E ++ [(u, v, EdgeType.time)]) ps

/-- Is the ordered pair `p` already an edge pair of `E`? -/
def pairMem (E : List (String × String × EdgeType)) (p : String × String) : Bool :=
  E.any (fun e => e.1 == p.1 && e.2.1 == p.2)

/-- The first discovered predecessor (`parent_node[0]` in the source). -/
def firstPredecessor (g : Graph) (v : String) : Option String :=
  (g.predecessors v).head?

instance : IsTotal Span (fun a b => a.start_time ≤ b.start_time) :=
  ⟨fun a b => le_total _ _⟩

instance : IsTrans Span (fun a b => a.start_time ≤ b.start_time) :=
  ⟨fun _ _ _ h1 h2 => le_trans h1 h2⟩

/-! ## Lemmas about the annotator -/

theorem scanLines_eq_map (ls : List (List Char)) :
    scanLines ls = (ls.map (fun l => (annotateLine l).1),
                    ls.filterMap (fun l => (annotateLine l).2)) := by
  induction ls with
  | nil => rfl
  | cons a t ih =>
    simp only [scanLines, ih, List.map_cons, List.filterMap_cons]
    cases h : (annotateLine a).2 <;> simp [h]

theorem annotateLine_of_blank {l : List Char} (h : keepLine l = false) :
    (annotateLine l).2 = none := by
  cases l with
  | nil => rfl
  | cons c t =>
    have hc : pyIsSpace c = true := by
      by_contra hcf
      simp [keepLine, Bool.not_eq_true] at h hcf
      exact absurd (h.1) (by simp [hcf])
    have hnb : c ≠ '[' := by
      intro hc2
      rw [hc2] at hc
      exact absurd hc (by decide)
    simp only [annotateLine, startsWithSeq]
    have : ('[' = c) = False := by simp [Ne.symm hnb]
    simp [this]

theorem annotateLine_unmatched {l : List Char}
    (h : (annotateLine l).2 = none) : (annotateLine l).1 = l := by
  by_cases hg : (startsWithSeq "[".data l && containsSeq "starts at".data l
      && containsSeq "finishes at".data l) = true
  · cases hs : searchStartFinish l with
    | none => simp [annotateLine, hg, hs]
    | some p =>
      exfalso
      obtain ⟨s, f⟩ := p
      simp [annotateLine, hg, hs] at h
  · simp [annotateLine, hg]

theorem filterMap_ann_filter_keep (ls : List (List Char)) :
    (ls.filter keepLine).filterMap (fun l => (annotateLine l).2) =
    ls.filterMap (fun l => (annotateLine l).2) := by
  induction ls with
  | nil => rfl
  | cons a t ih =>
    by_cases ha : keepLine a = true
    · simp only [List.filter_cons, ha, if_true, List.filterMap_cons, ih]
    · have ha' : keepLine a = false := by simpa using ha
      simp only [List.filter_cons, ha', List.filterMap_cons,
        annotateLine_of_blank ha', ih]
      simpa using ih

theorem matched_filter_keep (ls : List (List Char)) :
    (scanLines (ls.filter keepLine)).2 = (scanLines ls).2 := by
  rw [scanLines_eq_map, scanLines_eq_map]
  simpa using filterMap_ann_filter_keep ls

theorem foldlMin_some (ms : List (Nat × Nat)) (a : Nat) :
    ∃ b, ms.foldl (fun acc p =>
      match acc with
      | none => some p.1
      | some e => some (min e p.1)) (some a) = some b := by
  induction ms generalizing a with
  | nil => exact ⟨a, rfl⟩
  | cons p t ih => simpa using ih (min a p.1)

theorem foldEarliest_isSome {ms : List (Nat × Nat)} (h : ms ≠ []) :
    ∃ b, foldEarliest ms = some b := by
  cases ms with
  | nil => exact absurd rfl h
  | cons p t => simpa [foldEarliest] using foldlMin_some t p.1

theorem foldlMax_some (ms : List (Nat × Nat)) (a : Nat) :
    ∃ b, ms.foldl (fun acc p =>
      match acc with
      | none => some p.2
      | some l => some (max l p.2)) (some a) = some b := by
  induction ms generalizing a with
  | nil => exact ⟨a, rfl⟩
  | cons p t ih => simpa using ih (max a p.2)

theorem foldLatest_isSome {ms : List (Nat × Nat)} (h : ms ≠ []) :
    ∃ b, foldLatest ms = some b := by
  cases ms with
  | nil => exact absurd rfl h
  | cons p t => simpa [foldLatest] using foldlMax_some t p.2

theorem condTE_eq_condBB {e l : Nat} (he : e ≠ 0) : condTE e l = condBB e l := by
  unfold condTE condBB
  by_cases hel : e ≤ l
  · have hl : l ≠ 0 := by omega
    simp [he, hl, hel]
  · simp [hel]

theorem statsCore_total (c : Nat → Nat → Bool) (ms : List (Nat × Nat)) :
    (statsCore c ms).total_latency_ms =
      match foldEarliest ms, foldLatest ms with
      | some e, some l =>
        if c e l then max 0 ((l : Int) - (e : Int)) else (durationsOf ms).sum
      | _, _ => (durationsOf ms).sum := rfl

theorem statsCore_ratio (c : Nat → Nat → Bool) (ms : List (Nat × Nat)) :
    (statsCore c ms).maxEdgeRatioQ =
      (if (statsCore c ms).total_latency_ms > 0 then
        ((statsCore c ms).max_edge_latency_ms : ℚ) /
          ((statsCore c ms).total_latency_ms : ℚ)
      else 0) := rfl

theorem statsCore_total_eq {ms : List (Nat × Nat)}
    (he : foldEarliest ms ≠ some 0) :
    (statsCore condTE ms).total_latency_ms =
    (statsCore condBB ms).total_latency_ms := by
  rw [statsCore_total, statsCore_total]
  cases hE : foldEarliest ms with
  | none => cases hL : foldLatest ms <;> rfl
  | some e =>
    cases hL : foldLatest ms with
    | none => rfl
    | some l =>
      have he0 : e ≠ 0 := fun h => he (by rw [hE, h])
      show (if condTE e l then max 0 ((l : Int) - (e : Int))
            else (durationsOf ms).sum) =
          (if condBB e l then max 0 ((l : Int) - (e : Int))
            else (durationsOf ms).sum)
      rw [condTE_eq_condBB he0]

theorem statsCore_eq_of_earliest {ms : List (Nat × Nat)}
    (he : foldEarliest ms ≠ some 0) :
    statsCore condTE ms = statsCore condBB ms := by
  have htot := statsCore_total_eq he
  have hmx : (statsCore condTE ms).max_edge_latency_ms
      = (statsCore condBB ms).max_edge_latency_ms := rfl
  exact Stats.ext rfl htot rfl rfl rfl
    (by rw [statsCore_ratio, statsCore_ratio, htot, hmx]) rfl

/-! ## Claim C1 -/

/-- **C1** (code bug in `trace_evol.py`): on the spec's own worked example —
two edges `[start 0, finish 100]` and `[start 50, finish 80]` — both a
start and a finish are observed (`earliest = 0`, `latest = 100`), so the
claim requires `total_latency_ms = 100`; `trace_evol.py`'s guard
`earliest and latest and latest>=earliest` treats the earliest start `0`
as falsy and returns the sum `130` instead.  `build_balanced_testset.py`,
which tests `is not None` as the claim (and spec §4.4/§8) describes,
returns `100`. -/
theorem total_latency_truthiness_bug :
    matchedPairs wallclockInput = [(0, 100), (50, 80)] ∧
    foldEarliest (matchedPairs wallclockInput) = some 0 ∧
    foldLatest (matchedPairs wallclockInput) = some 100 ∧
    (parse_trace_and_stats wallclockInput).2.total_latency_ms = 130 ∧
    (parse_trace_and_stats_bb wallclockInput).2.total_latency_ms = 100 := by
  decide

/-! ## Claim C3 -/

/-- **C3** (counterexample): the two annotator copies are not equivalent —
on `twinInput` (earliest start 0) `trace_evol.py` computes
`total_latency_ms = 130` while `build_balanced_testset.py` computes `100`,
so the two statistics records differ. -/
theorem annotators_differ_counterexample :
    (parse_trace_and_stats twinInput).2 ≠ (parse_trace_and_stats_bb twinInput).2 ∧
    (parse_trace_and_stats twinInput).2.total_latency_ms = 130 ∧
    (parse_trace_and_stats_bb twinInput).2.total_latency_ms = 100 := by
  refine ⟨?_, by decide, by decide⟩
  intro h
  have := congrArg Stats.total_latency_ms h
  revert this
  decide

/-- **C3** (amended): on every input the two annotator copies agree on
`num_edges`, `max_edge_latency_ms`, `mean_edge_latency_ms`,
`p95_edge_latency_ms` and `bottleneck_index`; they agree on the full
statistics record (hence also on `total_latency_ms` and the max-edge
ratio) whenever the earliest observed start is not the literal value `0`;
and they produce the same annotated lines whenever the input has no
whitespace-only line (`build_balanced_testset.py` drops such lines). -/
theorem annotators_agreement (txt : List Char) :
    ((parse_trace_and_stats txt).2.num_edges
        = (parse_trace_and_stats_bb txt).2.num_edges ∧
      (parse_trace_and_stats txt).2.max_edge_latency_ms
        = (parse_trace_and_stats_bb txt).2.max_edge_latency_ms ∧
      (parse_trace_and_stats txt).2.mean_edge_latency_ms
        = (parse_trace_and_stats_bb txt).2.mean_edge_latency_ms ∧
      (parse_trace_and_stats txt).2.p95_edge_latency_ms
        = (parse_trace_and_stats_bb txt).2.p95_edge_latency_ms ∧
      (parse_trace_and_stats txt).2.bottleneck_index
        = (parse_trace_and_stats_bb txt).2.bottleneck_index) ∧
    (foldEarliest (matchedPairs txt) ≠ some 0 →
      (parse_trace_and_stats txt).2 = (parse_trace_and_stats_bb txt).2) ∧
    ((∀ l ∈ pySplitlines txt, keepLine l = true) →
      (parse_trace_and_stats txt).1 = (parse_trace_and_stats_bb txt).1) := by
  have hms : (scanLines ((pySplitlines txt).filter keepLine)).2
      = (scanLines (pySplitlines txt)).2 := matched_filter_keep _
  have h2 : (parse_trace_and_stats_bb txt).2
      = statsCore condBB (scanLines (pySplitlines txt)).2 := by
    have hr : (parse_trace_and_stats_bb txt).2
        = statsCore condBB (scanLines ((pySplitlines txt).filter keepLine)).2 := rfl
    rw [hr, hms]
  have h1 : (parse_trace_and_stats txt).2
      = statsCore condTE (scanLines (pySplitlines txt)).2 := rfl
  refine ⟨⟨?_, ?_, ?_, ?_, ?_⟩, ?_, ?_⟩
  · rw [h1, h2]; rfl
  · rw [h1, h2]; rfl
  · rw [h1, h2]; rfl
  · rw [h1, h2]; rfl
  · rw [h1, h2]; rfl
  · intro he
    rw [h1, h2]
    exact statsCore_eq_of_earliest he
  · intro h
    have hf : (pySplitlines txt).filter keepLine = pySplitlines txt :=
      List.filter_eq_self.mpr h
    unfold parse_trace_and_stats parse_trace_and_stats_bb
    rw [hf]

/-- Witness for the amended C3 at a concrete input with a nonzero earliest
start and no blank line: the two copies agree exactly. -/
theorem annotators_agreement_witness :
    (parse_trace_and_stats agreeInput).2 = (parse_trace_and_stats_bb agreeInput).2 ∧
    (parse_trace_and_stats agreeInput).1 = (parse_trace_and_stats_bb agreeInput).1 := by
  have h := annotators_agreement agreeInput
  exact ⟨h.2.1 (by decide), h.2.2 (by decide)⟩

/-! ## Claim C5 -/

/-- **C5** (counterexample): in `build_balanced_testset.py` a whitespace-only
line does **not** pass through: on input `"a\n \nb"` the middle line `" "`
is filtered out before the loop, so it is absent from the output lines. -/
theorem bb_drops_blank_line_counterexample :
    " ".data ∈ pySplitlines blankInput ∧
    (annotateLine " ".data).2 = none ∧
    " ".data ∉ (parse_trace_and_stats_bb blankInput).1 ∧
    (parse_trace_and_stats_bb blankInput).1 = ["a".data, "b".data] := by
  decide

/-- **C5** (amended): an unmatched line is returned byte-identical and
contributes nothing to the extracted pairs (hence to any statistic); in
`trace_evol.py` it stays in its original position among the output lines;
in `build_balanced_testset.py` a whitespace-only unmatched line is dropped
from the filtered line list (every other line passes through in relative
order). -/
theorem passthrough_unmatched_lines (pre post : List (List Char))
    (l : List Char) (h : (annotateLine l).2 = none) :
    (annotateLine l).1 = l ∧
    (scanLines (pre ++ l :: post)).2 = (scanLines (pre ++ post)).2 ∧
    (scanLines (pre ++ l :: post)).1
      = (scanLines pre).1 ++ l :: (scanLines post).1 ∧
    (keepLine l = false →
      (pre ++ l :: post).filter keepLine = (pre ++ post).filter keepLine) := by
  have hl := annotateLine_unmatched h
  refine ⟨hl, ?_, ?_, ?_⟩
  · rw [scanLines_eq_map, scanLines_eq_map]
    simp [List.filterMap_append, List.filterMap_cons, h]
  · rw [scanLines_eq_map, scanLines_eq_map, scanLines_eq_map]
    simp [List.map_append, hl]
  · intro hk
    simp [List.filter_append, List.filter_cons, hk]

/-- Witness for the amended C5: a blank line inserted between two lines is
returned unchanged by the loop body, contributes no pair, stays in place in
`trace_evol.py`'s line list, and is dropped by
`build_balanced_testset.py`'s filter. -/
theorem passthrough_unmatched_lines_witness :
    (annotateLine " ".data).1 = " ".data ∧
    (scanLines (["a".data] ++ " ".data :: ["b".data])).2
      = (scanLines (["a".data] ++ ["b".data])).2 ∧
    (scanLines (["a".data] ++ " ".data :: ["b".data])).1
      = (scanLines ["a".data]).1 ++ " ".data :: (scanLines ["b".data]).1 ∧
    (keepLine " ".data = false →
      (["a".data] ++ " ".data :: ["b".data]).filter keepLine
        = (["a".data] ++ ["b".data]).filter keepLine) :=
  passthrough_unmatched_lines ["a".data] ["b".data] " ".data (by decide)

/-! ## Claim C6 -/

theorem startsWithSeq_iff (n h : List Char) :
    startsWithSeq n h = true ↔ ∃ t, h = n ++ t := by
  induction n generalizing h with
  | nil => simp [startsWithSeq]
  | cons a as ih =>
    cases h with
    | nil => simp [startsWithSeq]
    | cons b bs =>
      rw [startsWithSeq]
      simp only [Bool.and_eq_true, decide_eq_true_eq, ih]
      constructor
      · rintro ⟨rfl, t, rfl⟩
        exact ⟨t, rfl⟩
      · rintro ⟨t, ht⟩
        injection ht with h1 h2
        exact ⟨h1.symm, t, h2⟩

theorem endsWith_decomp {n h : List Char} (he : endsWithSeq n h = true) :
    h.take (h.length - n.length) ++ n = h := by
  unfold endsWithSeq at he
  rw [startsWithSeq_iff] at he
  obtain ⟨t, ht⟩ := he
  have hh : h = t.reverse ++ n := by
    have h2 := congrArg List.reverse ht
    simpa using h2
  rw [hh]
  have hl : (t.reverse ++ n).length - n.length = t.reverse.length := by simp
  rw [hl, List.take_left]

theorem annotateLine_matched {raw : List Char} {s f : Nat}
    (hm : (annotateLine raw).2 = some (s, f)) :
    searchStartFinish raw = some (s, f) ∧
    (annotateLine raw).1 =
      (if endsWithSeq "].".data (rstrip raw) then
        raw.take (raw.length - 2) ++
          (", duration=".data ++ intStr (max 0 ((f : Int) - (s : Int))) ++ " ms].".data)
      else if endsWithSeq "]".data (rstrip raw) then
        raw.take (raw.length - 1) ++
          (", duration=".data ++ intStr (max 0 ((f : Int) - (s : Int))) ++ " ms]".data)
      else
        raw ++ (" (duration=".data ++ intStr (max 0 ((f : Int) - (s : Int))) ++ " ms)".data)) := by
  by_cases hg : (startsWithSeq "[".data raw && containsSeq "starts at".data raw
      && containsSeq "finishes at".data raw) = true
  · cases hs : searchStartFinish raw with
    | none => simp [annotateLine, hg, hs] at hm
    | some p =>
      obtain ⟨s', f'⟩ := p
      have hp : s' = s ∧ f' = f := by simpa [annotateLine, hg, hs] using hm
      obtain ⟨rfl, rfl⟩ := hp
      exact ⟨rfl, by simp [annotateLine, hg, hs]⟩
  · simp [annotateLine, hg] at hm

/-- **C6** (counterexample): on a matched line with trailing whitespace
after its `].` closing, the case test uses the stripped line but the slice
uses the raw line, so the closing is *not* replaced: the bracket survives
and the annotation is spliced after it.  Under the claim's reading (the raw
line ends with neither `].` nor `]`) the parenthetical form should have
been appended — it is not. -/
theorem rewrite_trailing_space_counterexample :
    (annotateLine trailingInput).2 = some (1, 5) ∧
    endsWithSeq "].".data trailingInput = false ∧
    endsWithSeq "]".data trailingInput = false ∧
    (annotateLine trailingInput).1 =
      "[a starts at 1 ms finishes at 5 ms], duration=4 ms].".data ∧
    (annotateLine trailingInput).1 ≠
      trailingInput ++ " (duration=4 ms)".data := by
  refine ⟨by decide, by decide, by decide, by decide, ?_⟩
  decide

/-- **C6** (amended): for a matched line `duration = max(0, finish−start)`;
the rewrite tests the *whitespace-stripped* line and slices the raw line,
so for a matched line with no trailing whitespace the claim's description
holds exactly: an ending `].` is replaced by `, duration=<d> ms].`, an
ending `]` by `, duration=<d> ms]`, and otherwise ` (duration=<d> ms)` is
appended. -/
theorem rewrite_preserves_closing (raw : List Char) (s f : Nat)
    (hm : (annotateLine raw).2 = some (s, f)) (hw : rstrip raw = raw) :
    (endsWithSeq "].".data raw = true →
      raw.take (raw.length - 2) ++ "].".data = raw ∧
      (annotateLine raw).1 = raw.take (raw.length - 2) ++
        (", duration=".data ++ intStr (max 0 ((f : Int) - (s : Int))) ++ " ms].".data)) ∧
    (endsWithSeq "].".data raw = false → endsWithSeq "]".data raw = true →
      raw.take (raw.length - 1) ++ "]".data = raw ∧
      (annotateLine raw).1 = raw.take (raw.length - 1) ++
        (", duration=".data ++ intStr (max 0 ((f : Int) - (s : Int))) ++ " ms]".data)) ∧
    (endsWithSeq "].".data raw = false → endsWithSeq "]".data raw = false →
      (annotateLine raw).1 = raw ++
        (" (duration=".data ++ intStr (max 0 ((f : Int) - (s : Int))) ++ " ms)".data)) := by
  obtain ⟨hs, hline⟩ := annotateLine_matched hm
  rw [hw] at hline
  refine ⟨?_, ?_, ?_⟩
  · intro h1
    have hd := endsWith_decomp h1
    rw [show ("].".data).length = 2 from rfl] at hd
    refine ⟨hd, ?_⟩
    rw [hline]
    simp [h1]
  · intro h1 h2
    have hd := endsWith_decomp h2
    rw [show ("]".data).length = 1 from rfl] at hd
    refine ⟨hd, ?_⟩
    rw [hline]
    simp [h1, h2]
  · intro h1 h2
    rw [hline]
    simp [h1, h2]

/-- Witness for the amended C6 on a line ending exactly with `].`. -/
theorem rewrite_preserves_closing_witness :
    closedInput.take (closedInput.length - 2) ++ "].".data = closedInput ∧
    (annotateLine closedInput).1 = closedInput.take (closedInput.length - 2) ++
      (", duration=".data ++ intStr (max 0 ((2 : Int) - (1 : Int))) ++ " ms].".data) := by
  have h := rewrite_preserves_closing closedInput 1 2 (by decide) (by decide)
  exact h.1 (by decide)

/-! ## Claim C9 -/

theorem ceil95_eq (n : Nat) : (ceil95 n : Int) = ⌈(95 : ℚ) / 100 * n⌉ := by
  have h1 : 95 * n + 99 = 100 * ceil95 n + (95 * n + 99) % 100 :=
    (Nat.div_add_mod _ _).symm
  have h2 : (95 * n + 99) % 100 < 100 := Nat.mod_lt _ (by norm_num)
  have h1q : (95 : ℚ) * n + 99
      = 100 * (ceil95 n : ℚ) + ((95 * n + 99) % 100 : Nat) := by
    exact_mod_cast h1
  have h3 : (95 * n + 99) % 100 ≤ 99 := by omega
  have h3q : (((95 * n + 99) % 100 : Nat) : ℚ) ≤ 99 := by exact_mod_cast h3
  have h0q : (0 : ℚ) ≤ (((95 * n + 99) % 100 : Nat) : ℚ) := by positivity
  symm
  rw [Int.ceil_eq_iff]
  constructor
  · push_cast
    linarith
  · push_cast
    linarith

theorem statsCore_p95 (c : Nat → Nat → Bool) (ms : List (Nat × Nat)) :
    (statsCore c ms).p95_edge_latency_ms =
      (match List.insertionSort (· ≤ ·) (durationsOf ms) with
      | [] => (0 : Int)
      | _ :: _ =>
        (List.insertionSort (· ≤ ·) (durationsOf ms)).getD
          (max 0 (min ((List.insertionSort (· ≤ ·) (durationsOf ms)).length - 1)
            (ceil95 (List.insertionSort (· ≤ ·) (durationsOf ms)).length - 1))) 0) := rfl

/-- **C9**: the sorted duration list is an ascending permutation of the
durations, and for a non-empty duration list of length `N` the annotator's
`p95_edge_latency_ms` is the value at index `⌈0.95·N⌉ − 1` (clamped to
`[0, N−1]`) of that sorted list (`ceil95` is exactly the rational ceiling);
with no durations it is `0`. -/
theorem p95_nearest_rank (txt : List Char) :
    (List.insertionSort (· ≤ ·) (durationsTE txt)).Perm (durationsTE txt) ∧
    List.Sorted (· ≤ ·) (List.insertionSort (· ≤ ·) (durationsTE txt)) ∧
    (durationsTE txt ≠ [] →
      (ceil95 (durationsTE txt).length : Int)
        = ⌈(95 : ℚ) / 100 * (durationsTE txt).length⌉ ∧
      (parse_trace_and_stats txt).2.p95_edge_latency_ms
        = (List.insertionSort (· ≤ ·) (durationsTE txt)).getD
            (min ((durationsTE txt).length - 1)
              (ceil95 (durationsTE txt).length - 1)) 0) ∧
    (durationsTE txt = [] →
      (parse_trace_and_stats txt).2.p95_edge_latency_ms = 0) := by
  have hperm := List.perm_insertionSort (· ≤ ·) (durationsTE txt)
  refine ⟨hperm, List.sorted_insertionSort (· ≤ ·) (durationsTE txt), ?_, ?_⟩
  · intro h
    refine ⟨ceil95_eq _, ?_⟩
    have hp : (parse_trace_and_stats txt).2.p95_edge_latency_ms
        = (statsCore condTE (scanLines (pySplitlines txt)).2).p95_edge_latency_ms := rfl
    rw [hp, statsCore_p95]
    have hd : durationsOf (scanLines (pySplitlines txt)).2 = durationsTE txt := rfl
    rw [hd]
    have hne : List.insertionSort (· ≤ ·) (durationsTE txt) ≠ [] := by
      intro h0
      have hl := hperm.length_eq
      rw [h0] at hl
      exact h (List.length_eq_zero.mp hl.symm)
    cases hvs : List.insertionSort (· ≤ ·) (durationsTE txt) with
    | nil => exact absurd hvs hne
    | cons v vt =>
      have hlen : (v :: vt).length = (durationsTE txt).length := by
        rw [← hvs]
        exact hperm.length_eq
      simp only [hlen, max_eq_right (Nat.zero_le _)]
  · intro h
    have hp : (parse_trace_and_stats txt).2.p95_edge_latency_ms
        = (statsCore condTE (scanLines (pySplitlines txt)).2).p95_edge_latency_ms := rfl
    rw [hp, statsCore_p95]
    have hd : durationsOf (scanLines (pySplitlines txt)).2 = durationsTE txt := rfl
    rw [hd, h]
    rfl

/-- Witness for C9 at the spec's two boundary examples: durations
`[10, 20, 30, 40]` give `p95 = 40` (the max) and `[50]` gives `50`. -/
theorem p95_nearest_rank_witness :
    (parse_trace_and_stats quadInput).2.p95_edge_latency_ms = 40 ∧
    (parse_trace_and_stats singleInput).2.p95_edge_latency_ms = 50 := by
  have h4 := (p95_nearest_rank quadInput).2.2.1 (by decide)
  have h1 := (p95_nearest_rank singleInput).2.2.1 (by decide)
  exact ⟨h4.2.trans (by decide), h1.2.trans (by decide)⟩

/-! ## Claim C10 -/

theorem foldl_max_mem (ds : List Int) (d : Int) : ds.foldl max d ∈ d :: ds := by
  induction ds generalizing d with
  | nil => simp
  | cons c cs ih =>
    simp only [List.foldl_cons]
    have h := ih (max d c)
    rcases List.mem_cons.mp h with h1 | h1
    · rw [h1]
      rcases max_choice d c with hc | hc <;> rw [hc] <;> simp
    · simp [h1]

theorem findIdx?_eq_findIdx {α : Type} {p : α → Bool} {l : List α}
    (h : ∃ a ∈ l, p a = true) :
    l.findIdx? p = some (l.findIdx p) := by
  induction l with
  | nil => simp at h
  | cons a t ih =>
    by_cases hp : p a = true
    · simp [List.findIdx?_cons, List.findIdx_cons, hp]
    · obtain ⟨b, hb, hpb⟩ := h
      have hbt : b ∈ t := by
        rcases List.mem_cons.mp hb with rfl | h2
        · exact absurd hpb hp
        · exact h2
      simp [List.findIdx?_cons, List.findIdx_cons, hp, ih ⟨b, hbt, hpb⟩]

theorem statsCoreChecked_eq (c : Nat → Nat → Bool) (ms : List (Nat × Nat))
    (hm : durationsOf ms ≠ [] →
      (pyFloatDiv (durationsOf ms).sum (durationsOf ms).length).isSome) :
    statsCoreChecked c ms = some (statsCore c ms) := by
  cases hd : durationsOf ms with
  | nil =>
    unfold statsCoreChecked statsCore
    rw [hd]
    simp [List.insertionSort]
  | cons d ds =>
    have hsome := hm (by rw [hd]; exact List.cons_ne_nil d ds)
    rw [hd] at hsome
    obtain ⟨q, hq⟩ := Option.isSome_iff_exists.mp hsome
    simp only [List.sum_cons, List.length_cons] at hq
    unfold statsCoreChecked statsCore
    rw [hd]
    have hlen : (List.insertionSort (· ≤ ·) (d :: ds)).length = ds.length + 1 := by
      simpa using (List.perm_insertionSort (· ≤ ·) (d :: ds)).length_eq
    have hvs : List.insertionSort (· ≤ ·) (d :: ds) ≠ [] := by
      intro h0
      rw [h0] at hlen
      simp at hlen
    obtain ⟨v, vt, hveq⟩ := List.exists_cons_of_ne_nil hvs
    have hmem : (ds.foldl max d) ∈ d :: ds := foldl_max_mem ds d
    have hfind := findIdx?_eq_findIdx (p := (· == ds.foldl max d))
      ⟨ds.foldl max d, hmem, beq_self_eq_true _⟩
    rw [hveq] at hlen
    have hidx : max 0 (min ((v :: vt).length - 1) (ceil95 (v :: vt).length - 1))
        < (v :: vt).length := by
      simp only [List.length_cons]
      omega
    have hget : (v :: vt)[max 0 (min ((v :: vt).length - 1)
        (ceil95 (v :: vt).length - 1))]?
        = some ((v :: vt).getD (max 0 (min ((v :: vt).length - 1)
            (ceil95 (v :: vt).length - 1))) 0) := by
      rw [List.getElem?_eq_getElem hidx, List.getD_eq_getElem?_getD,
        List.getElem?_eq_getElem hidx]
      rfl
    have hmax : (d :: ds).max? = some (ds.foldl max d) := rfl
    have hveq2 : List.orderedInsert (fun x1 x2 => x1 ≤ x2) d
        (List.insertionSort (fun x1 x2 => x1 ≤ x2) ds) = v :: vt := hveq
    simp [hveq, hveq2, hmax, hget, hfind, hq, -List.findIdx?_cons]

set_option maxRecDepth 40000 in
/-- **C10** (counterexample): the annotator is *not* total.  On a single
matched line whose finish value is `10 ^ 309`, the mean computation
`int(sum(durations)/len(durations))` true-divides ints into a float and
the quotient `10 ^ 309` exceeds the largest double, so both Python
copies raise `OverflowError` — every guard the claim cites is in place,
yet the function raises.  The exception-aware variants return `none`
here. -/
theorem annotator_overflow_counterexample :
    parse_trace_and_stats_checked overflowInput = none ∧
    parse_trace_and_stats_bb_checked overflowInput = none := by
  decide

/-- **C10** (amended): both annotator copies return normally on every
input whose duration mean stays below the double overflow threshold
(in particular on every input with no matched line): the exception-aware
variant (`none` exactly where the Python code would raise:
`max(durations)`, `sum(durations)/len(durations)`, `vs[idx]`,
`durations.index(mx)`) returns `some` of exactly the plain result; the
remaining fallible operations all sit behind their non-emptiness
guards, and only the mean's `OverflowError` escapes them. -/
theorem annotator_total (txt : List Char)
    (hm : durationsTE txt ≠ [] →
      (pyFloatDiv (durationsTE txt).sum (durationsTE txt).length).isSome) :
    parse_trace_and_stats_checked txt = some (parse_trace_and_stats txt) ∧
    parse_trace_and_stats_bb_checked txt = some (parse_trace_and_stats_bb txt) := by
  have hms : (scanLines ((pySplitlines txt).filter keepLine)).2
      = (scanLines (pySplitlines txt)).2 := matched_filter_keep _
  constructor
  · unfold parse_trace_and_stats_checked
    rw [statsCoreChecked_eq condTE (scanLines (pySplitlines txt)).2 hm]
    rfl
  · unfold parse_trace_and_stats_bb_checked
    rw [statsCoreChecked_eq condBB (scanLines ((pySplitlines txt).filter keepLine)).2
      (by rw [hms]; exact hm)]
    rfl

set_option maxRecDepth 40000 in
/-- **C10** (witness): on the one-edge input with duration 6 both checked
copies return `some` of the plain result. -/
theorem annotator_total_witness :
    parse_trace_and_stats_checked agreeInput = some (parse_trace_and_stats agreeInput) ∧
    parse_trace_and_stats_bb_checked agreeInput = some (parse_trace_and_stats_bb agreeInput) :=
  annotator_total agreeInput (by intro h; decide)

/-! ## Lemmas about the graph operations -/

theorem contains_iff_mem {l : List String} {a : String} :
    l.contains a = true ↔ a ∈ l := List.elem_iff

theorem Graph.addNode_edges (g : Graph) (id : String) (s : Span) :
    (g.addNode id s).edges = g.edges := by
  unfold Graph.addNode
  split <;> rfl

theorem Graph.addNode_nodeIds (g : Graph) (id : String) (s : Span) :
    (g.addNode id s).nodeIds =
      if id ∈ g.nodeIds then g.nodeIds else g.nodeIds ++ [id] := by
  by_cases h : id ∈ g.nodeIds
  · rw [if_pos h]
    unfold Graph.addNode
    rw [if_pos (contains_iff_mem.mpr h)]
    show (g.nodes.map _).map Prod.fst = g.nodes.map Prod.fst
    rw [List.map_map]
    refine List.map_congr_left ?_
    intro p _
    by_cases hp : p.1 = id
    · simp [hp]
    · simp [hp]
  · rw [if_neg h]
    unfold Graph.addNode
    rw [if_neg (fun hc => h (contains_iff_mem.mp hc))]
    show (g.nodes ++ [(id, some s)]).map Prod.fst = g.nodes.map Prod.fst ++ [id]
    simp

theorem Graph.ensureNode_edges (g : Graph) (id : String) :
    (g.ensureNode id).edges = g.edges := by
  unfold Graph.ensureNode
  split <;> rfl

theorem Graph.ensureNode_of_mem {g : Graph} {id : String} (h : id ∈ g.nodeIds) :
    g.ensureNode id = g := by
  unfold Graph.ensureNode
  rw [if_pos (contains_iff_mem.mpr h)]

theorem Graph.addEdge_nodes_of_mem {g : Graph} {u v : String} (t : EdgeType)
    (hu : u ∈ g.nodeIds) (hv : v ∈ g.nodeIds) :
    (g.addEdge u v t).nodes = g.nodes := by
  unfold Graph.addEdge
  rw [Graph.ensureNode_of_mem hu, Graph.ensureNode_of_mem hv]
  split <;> rfl

theorem Graph.addEdge_nodes (g : Graph) (u v : String) (t : EdgeType) :
    (g.addEdge u v t).nodes = ((g.ensureNode u).ensureNode v).nodes := by
  unfold Graph.addEdge
  split <;> rfl

theorem Graph.hasPair_congr (g : Graph) (u v : String) :
    ((g.ensureNode u).ensureNode v).hasPair u v = g.hasPair u v := by
  unfold Graph.hasPair
  rw [Graph.ensureNode_edges, Graph.ensureNode_edges]

theorem Graph.hasPair_eq_pairMem (g : Graph) (u v : String) :
    g.hasPair u v = pairMem g.edges (u, v) := rfl

theorem Graph.addEdge_edges (g : Graph) (u v : String) (t : EdgeType) :
    (g.addEdge u v t).edges =
      if g.hasPair u v then
        g.edges.map (fun e => if e.1 == u && e.2.1 == v then (u, v, t) else e)
      else g.edges ++ [(u, v, t)] := by
  unfold Graph.addEdge
  rw [Graph.hasPair_congr, Graph.ensureNode_edges, Graph.ensureNode_edges]
  split <;> rfl

theorem find?_isSome_of_exists {α : Type} {p : α → Bool} {l : List α}
    (h : ∃ x ∈ l, p x = true) : ∃ b, l.find? p = some b := by
  cases hf : l.find? p with
  | none =>
    rw [List.find?_eq_none] at hf
    obtain ⟨x, hx, hpx⟩ := h
    exact absurd hpx (by simpa using hf x hx)
  | some b => exact ⟨b, rfl⟩

theorem Graph.addNode_lookup_self (g : Graph) (id : String) (s : Span) :
    (g.addNode id s).lookupSpan id = some s := by
  unfold Graph.addNode Graph.lookupSpan
  cases hc : g.nodeIds.contains id with
  | false =>
    rw [if_neg Bool.false_ne_true]
    have hn : g.nodes.find? (fun p => p.1 == id) = none := by
      rw [List.find?_eq_none]
      intro q hq
      simp only [beq_iff_eq]
      intro hq1
      have hmem : g.nodeIds.contains id = true :=
        contains_iff_mem.mpr (List.mem_map.mpr ⟨q, hq, hq1⟩)
      rw [hmem] at hc
      cases hc
    simp [List.find?_append, hn]
  | true =>
    rw [if_pos rfl]
    have hex : ∃ q ∈ g.nodes, (q.1 == id) = true := by
      have hm : id ∈ g.nodeIds := contains_iff_mem.mp hc
      obtain ⟨q, hq, hq1⟩ := List.mem_map.mp hm
      exact ⟨q, hq, by simp [hq1]⟩
    rw [List.find?_map]
    have hpf : ((fun p : String × Option Span => p.1 == id) ∘
        (fun p => if p.1 == id then (id, some s) else p))
        = (fun p : String × Option Span => p.1 == id) := by
      funext q
      simp only [Function.comp_apply]
      by_cases hq : q.1 = id
      · rw [if_pos (by simp [hq])]
        simp [hq]
      · rw [if_neg (by simp [hq])]
    rw [hpf]
    obtain ⟨b, hb⟩ := find?_isSome_of_exists hex
    have hb1 : (b.1 == id) = true := by simpa using List.find?_some hb
    rw [hb]
    show (if (b.1 == id) = true then ((id, some s) : String × Option Span) else b).2
      = some s
    rw [if_pos hb1]

theorem Graph.addNode_lookup_other (g : Graph) (id : String) (s : Span)
    {x : String} (h : x ≠ id) :
    (g.addNode id s).lookupSpan x = g.lookupSpan x := by
  unfold Graph.addNode Graph.lookupSpan
  cases hc : g.nodeIds.contains id with
  | false =>
    rw [if_neg Bool.false_ne_true]
    have h2 : ([((id : String), some s)].find? (fun p => p.1 == x)) = none := by
      simp [Ne.symm h]
    simp [List.find?_append, h2]
  | true =>
    rw [if_pos rfl]
    rw [List.find?_map]
    have hpf : ((fun p : String × Option Span => p.1 == x) ∘
        (fun p => if p.1 == id then (id, some s) else p))
        = (fun p : String × Option Span => p.1 == x) := by
      funext q
      simp only [Function.comp_apply]
      by_cases hq : q.1 = id
      · rw [if_pos (by simp [hq])]
        simp [hq]
      · rw [if_neg (by simp [hq])]
    rw [hpf]
    cases hf : g.nodes.find? (fun p => p.1 == x) with
    | none => rfl
    | some q =>
      have hq1 : (q.1 == x) = true := by simpa using List.find?_some hf
      have hqid : ¬ ((q.1 == id) = true) := by
        have hx : q.1 = x := by simpa using hq1
        simp [hx, h]
      show (if (q.1 == id) = true then ((id, some s) : String × Option Span) else q).2
        = q.2
      rw [if_neg hqid]

theorem foldl_addNode_edges (spans : List Span) (g : Graph) :
    (spans.foldl (fun g s => g.addNode s.span_id s) g).edges = g.edges := by
  induction spans generalizing g with
  | nil => rfl
  | cons s t ih =>
    simp only [List.foldl_cons]
    rw [ih, Graph.addNode_edges]

theorem foldl_addNode_nodeIds (spans : List Span) (g : Graph)
    (hnd : (spans.map Span.span_id).Nodup)
    (hdisj : ∀ s ∈ spans, s.span_id ∉ g.nodeIds) :
    (spans.foldl (fun g s => g.addNode s.span_id s) g).nodeIds
      = g.nodeIds ++ spans.map Span.span_id := by
  induction spans generalizing g with
  | nil => simp
  | cons s t ih =>
    simp only [List.foldl_cons, List.map_cons]
    have hs : s.span_id ∉ g.nodeIds := hdisj s (by simp)
    have h1 : (g.addNode s.span_id s).nodeIds = g.nodeIds ++ [s.span_id] := by
      rw [Graph.addNode_nodeIds, if_neg hs]
    rw [List.map_cons, List.nodup_cons] at hnd
    have hdisj2 : ∀ s' ∈ t, s'.span_id ∉ (g.addNode s.span_id s).nodeIds := by
      intro s' hs'
      rw [h1]
      simp only [List.mem_append, List.mem_singleton]
      rintro (h2 | h2)
      · exact hdisj s' (by simp [hs']) h2
      · exact hnd.1 (h2 ▸ List.mem_map_of_mem Span.span_id hs')
    rw [ih (g.addNode s.span_id s) hnd.2 hdisj2, h1]
    simp

theorem foldl_addNode_lookup (spans : List Span) (g : Graph)
    (hbase : ∀ v ∈ g.nodeIds, (g.lookupSpan v).isSome) :
    ∀ v ∈ (spans.foldl (fun g s => g.addNode s.span_id s) g).nodeIds,
      ((spans.foldl (fun g s => g.addNode s.span_id s) g).lookupSpan v).isSome := by
  induction spans generalizing g with
  | nil => exact hbase
  | cons s t ih =>
    simp only [List.foldl_cons]
    apply ih
    intro v hv
    by_cases hvx : v = s.span_id
    · rw [hvx, Graph.addNode_lookup_self]
      rfl
    · rw [Graph.addNode_lookup_other _ _ _ hvx]
      apply hbase
      rw [Graph.addNode_nodeIds] at hv
      split at hv
      · exact hv
      · rcases List.mem_append.mp hv with h2 | h2
        · exact h2
        · exact absurd (by simpa using h2) hvx

theorem nodesPass_nodeIds (spans : List Span)
    (hnd : (spans.map Span.span_id).Nodup) :
    (nodesPass spans).nodeIds = spans.map Span.span_id := by
  have h := foldl_addNode_nodeIds spans Graph.empty hnd
    (by intro s _ h; simp [Graph.empty, Graph.nodeIds] at h)
  unfold nodesPass
  rw [h]
  simp [Graph.empty, Graph.nodeIds]

theorem causalStep_none {s : Span} (g : Graph) (h : s.parent_span_id = none) :
    causalStep g s = g := by
  unfold causalStep
  rw [h]

theorem causalStep_pos {s : Span} {p : String} (g : Graph)
    (hp : s.parent_span_id = some p) (hcond : p ≠ "" ∧ g.nodeIds.contains p = true) :
    causalStep g s = g.addEdge p s.span_id EdgeType.parent := by
  unfold causalStep
  rw [hp]
  exact if_pos hcond

theorem causalStep_neg {s : Span} {p : String} (g : Graph)
    (hp : s.parent_span_id = some p)
    (hcond : ¬ (p ≠ "" ∧ g.nodeIds.contains p = true)) :
    causalStep g s = g := by
  unfold causalStep
  rw [hp]
  exact if_neg hcond

theorem causalPass_cons (s : Span) (t : List Span) (g : Graph) :
    causalPass (s :: t) g = causalPass t (causalStep g s) := rfl

theorem causalEdgeList_cons_none {s : Span} (ids : List String) (t : List Span)
    (h : s.parent_span_id = none) :
    causalEdgeList ids (s :: t) = causalEdgeList ids t := by
  unfold causalEdgeList
  rw [List.filterMap_cons]
  simp only [h]

theorem causalEdgeList_cons_pos {s : Span} {p : String} (ids : List String)
    (t : List Span) (hp : s.parent_span_id = some p)
    (hcond : p ≠ "" ∧ ids.contains p = true) :
    causalEdgeList ids (s :: t)
      = (p, s.span_id, EdgeType.parent) :: causalEdgeList ids t := by
  unfold causalEdgeList
  rw [List.filterMap_cons]
  simp only [hp]
  rw [if_pos hcond]

theorem causalEdgeList_cons_neg {s : Span} {p : String} (ids : List String)
    (t : List Span) (hp : s.parent_span_id = some p)
    (hcond : ¬ (p ≠ "" ∧ ids.contains p = true)) :
    causalEdgeList ids (s :: t) = causalEdgeList ids t := by
  unfold causalEdgeList
  rw [List.filterMap_cons]
  simp only [hp]
  rw [if_neg hcond]

theorem causalPass_nodes (spans : List Span) (g : Graph)
    (hn : ∀ s ∈ spans, s.span_id ∈ g.nodeIds) :
    (causalPass spans g).nodes = g.nodes := by
  induction spans generalizing g with
  | nil => rfl
  | cons s t ih =>
    rw [causalPass_cons]
    cases hp : s.parent_span_id with
    | none =>
      rw [causalStep_none g hp]
      exact ih g (fun s' hs' => hn s' (by simp [hs']))
    | some p =>
      by_cases hcond : p ≠ "" ∧ g.nodeIds.contains p = true
      · rw [causalStep_pos g hp hcond]
        have hpm : p ∈ g.nodeIds := contains_iff_mem.mp hcond.2
        have hsm : s.span_id ∈ g.nodeIds := hn s (by simp)
        have hnodes : (g.addEdge p s.span_id EdgeType.parent).nodes = g.nodes :=
          Graph.addEdge_nodes_of_mem _ hpm hsm
        have hids : (g.addEdge p s.span_id EdgeType.parent).nodeIds = g.nodeIds := by
          unfold Graph.nodeIds
          rw [hnodes]
        rw [ih (g.addEdge p s.span_id EdgeType.parent)
          (fun s' hs' => by rw [hids]; exact hn s' (by simp [hs'])), hnodes]
      · rw [causalStep_neg g hp hcond]
        exact ih g (fun s' hs' => hn s' (by simp [hs']))

theorem causalPass_edges (spans : List Span) (g : Graph)
    (hn : ∀ s ∈ spans, s.span_id ∈ g.nodeIds)
    (hfresh : ∀ s ∈ spans, ∀ e ∈ g.edges, e.2.1 ≠ s.span_id)
    (hnd : (spans.map Span.span_id).Nodup) :
    (causalPass spans g).edges = g.edges ++ causalEdgeList g.nodeIds spans := by
  induction spans generalizing g with
  | nil => simp [causalPass, causalEdgeList]
  | cons s t ih =>
    rw [List.map_cons, List.nodup_cons] at hnd
    rw [causalPass_cons]
    cases hp : s.parent_span_id with
    | none =>
      rw [causalStep_none g hp, causalEdgeList_cons_none g.nodeIds t hp]
      exact ih g (fun s' hs' => hn s' (by simp [hs']))
        (fun s' hs' => hfresh s' (by simp [hs'])) hnd.2
    | some p =>
      by_cases hcond : p ≠ "" ∧ g.nodeIds.contains p = true
      · rw [causalStep_pos g hp hcond, causalEdgeList_cons_pos g.nodeIds t hp hcond]
        have hpm : p ∈ g.nodeIds := contains_iff_mem.mp hcond.2
        have hsm : s.span_id ∈ g.nodeIds := hn s (by simp)
        have hnodes : (g.addEdge p s.span_id EdgeType.parent).nodes = g.nodes :=
          Graph.addEdge_nodes_of_mem _ hpm hsm
        have hids : (g.addEdge p s.span_id EdgeType.parent).nodeIds = g.nodeIds := by
          unfold Graph.nodeIds
          rw [hnodes]
        have hnopair : g.hasPair p s.span_id = false := by
          unfold Graph.hasPair
          rw [List.any_eq_false]
          intro e he
          simp only [Bool.and_eq_true, beq_iff_eq, not_and]
          intro _
          exact hfresh s (by simp) e he
        have hedges : (g.addEdge p s.span_id EdgeType.parent).edges
            = g.edges ++ [(p, s.span_id, EdgeType.parent)] := by
          rw [Graph.addEdge_edges, hnopair]
          simp
        have hfresh2 : ∀ s' ∈ t,
            ∀ e ∈ (g.addEdge p s.span_id EdgeType.parent).edges,
              e.2.1 ≠ s'.span_id := by
          intro s' hs' e he
          rw [hedges] at he
          rcases List.mem_append.mp he with h2 | h2
          · exact hfresh s' (by simp [hs']) e h2
          · have he2 : e = (p, s.span_id, EdgeType.parent) := by simpa using h2
            rw [he2]
            intro hx
            have hx2 : s.span_id = s'.span_id := hx
            exact hnd.1 (hx2 ▸ List.mem_map_of_mem Span.span_id hs')
        rw [ih (g.addEdge p s.span_id EdgeType.parent)
          (fun s' hs' => by rw [hids]; exact hn s' (by simp [hs'])) hfresh2 hnd.2,
          hids, hedges]
        simp
      · rw [causalStep_neg g hp hcond, causalEdgeList_cons_neg g.nodeIds t hp hcond]
        exact ih g (fun s' hs' => hn s' (by simp [hs']))
          (fun s' hs' => hfresh s' (by simp [hs'])) hnd.2

theorem causalEdgeList_mem (ids : List String) (spans : List Span)
    (u v : String) (t : EdgeType) :
    (u, v, t) ∈ causalEdgeList ids spans ↔
      t = EdgeType.parent ∧ ∃ s ∈ spans, s.span_id = v ∧
        s.parent_span_id = some u ∧ u ≠ "" ∧ u ∈ ids := by
  unfold causalEdgeList
  rw [List.mem_filterMap]
  constructor
  · rintro ⟨s, hs, hmatch⟩
    cases hps : s.parent_span_id with
    | none => rw [hps] at hmatch; cases hmatch
    | some p =>
      rw [hps] at hmatch
      replace hmatch : (if p ≠ "" ∧ ids.contains p = true then
          some ((p, s.span_id, EdgeType.parent) : String × String × EdgeType)
        else none) = some (u, v, t) := hmatch
      by_cases hcond : p ≠ "" ∧ ids.contains p = true
      · rw [if_pos hcond] at hmatch
        obtain ⟨h1, h2, h3⟩ : p = u ∧ s.span_id = v ∧ EdgeType.parent = t := by
          injection hmatch with hm
          injection hm with hm1 hm2
          injection hm2 with hm2 hm3
          exact ⟨hm1, hm2, hm3⟩
        subst h1
        subst h2
        subst h3
        exact ⟨rfl, s, hs, rfl, hps, hcond.1, contains_iff_mem.mp hcond.2⟩
      · rw [if_neg hcond] at hmatch
        cases hmatch
  · rintro ⟨rfl, s, hs, rfl, hps, hne, hmem⟩
    refine ⟨s, hs, ?_⟩
    rw [hps]
    show (if u ≠ "" ∧ ids.contains u = true then
        some ((u, s.span_id, EdgeType.parent) : String × String × EdgeType)
      else none) = some (u, s.span_id, EdgeType.parent)
    rw [if_pos ⟨hne, contains_iff_mem.mpr hmem⟩]

theorem causalEdgeList_snd_sublist (ids : List String) (spans : List Span) :
    ((causalEdgeList ids spans).map (fun e => e.2.1)).Sublist
      (spans.map Span.span_id) := by
  induction spans with
  | nil => simp [causalEdgeList]
  | cons s t ih =>
    cases hp : s.parent_span_id with
    | none =>
      rw [causalEdgeList_cons_none ids t hp, List.map_cons]
      exact ih.cons _
    | some p =>
      by_cases hcond : p ≠ "" ∧ ids.contains p = true
      · rw [causalEdgeList_cons_pos ids t hp hcond, List.map_cons, List.map_cons]
        exact ih.cons₂ _
      · rw [causalEdgeList_cons_neg ids t hp hcond, List.map_cons]
        exact ih.cons _

theorem timePass_nodes (L : List Span) (g : Graph)
    (hids : ∀ s ∈ L, s.span_id ∈ g.nodeIds) :
    (timePass g L).nodes = g.nodes := by
  induction L generalizing g with
  | nil => rfl
  | cons a t ih =>
    cases t with
    | nil => rfl
    | cons b rest =>
      show (timePass (if 0 < timeGap a b ∧ timeGap a b ≤ 2 then
          g.addEdge a.span_id b.span_id EdgeType.time else g) (b :: rest)).nodes
        = g.nodes
      by_cases hcond : 0 < timeGap a b ∧ timeGap a b ≤ 2
      · rw [if_pos hcond]
        have hnodes : (g.addEdge a.span_id b.span_id EdgeType.time).nodes = g.nodes :=
          Graph.addEdge_nodes_of_mem _ (hids a (by simp)) (hids b (by simp))
        rw [ih _ (fun s hs => by
          unfold Graph.nodeIds
          rw [hnodes]
          exact hids s (by simp [hs])), hnodes]
      · rw [if_neg hcond]
        exact ih g (fun s hs => hids s (by simp [hs]))

theorem timePass_edges (L : List Span) (g : Graph)
    (hids : ∀ s ∈ L, s.span_id ∈ g.nodeIds) :
    (timePass g L).edges = timeApply g.edges (timePairList L) := by
  induction L generalizing g with
  | nil => rfl
  | cons a t ih =>
    cases t with
    | nil => rfl
    | cons b rest =>
      show (timePass (if 0 < timeGap a b ∧ timeGap a b ≤ 2 then
          g.addEdge a.span_id b.span_id EdgeType.time else g) (b :: rest)).edges
        = timeApply g.edges
            ((if 0 < timeGap a b ∧ timeGap a b ≤ 2 then
              [(a.span_id, b.span_id)] else []) ++ timePairList (b :: rest))
      by_cases hcond : 0 < timeGap a b ∧ timeGap a b ≤ 2
      · rw [if_pos hcond, if_pos hcond]
        have hnodes : (g.addEdge a.span_id b.span_id EdgeType.time).nodes = g.nodes :=
          Graph.addEdge_nodes_of_mem _ (hids a (by simp)) (hids b (by simp))
        rw [ih _ (fun s hs => by
          unfold Graph.nodeIds
          rw [hnodes]
          exact hids s (by simp [hs]))]
        have hstep : (g.addEdge a.span_id b.span_id EdgeType.time).edges
            = (if g.edges.any (fun e => e.1 == a.span_id && e.2.1 == b.span_id) then
                g.edges.map (fun e => if e.1 == a.span_id && e.2.1 == b.span_id then
                  (a.span_id, b.span_id, EdgeType.time) else e)
              else g.edges ++ [(a.span_id, b.span_id, EdgeType.time)]) := by
          rw [Graph.addEdge_edges]
          rfl
        rw [hstep]
        rfl
      · rw [if_neg hcond, if_neg hcond]
        rw [ih g (fun s hs => hids s (by simp [hs]))]
        rfl

theorem pairMem_retype (E : List (String × String × EdgeType)) (u v : String)
    (q : String × String) :
    pairMem (E.map (fun e => if e.1 == u && e.2.1 == v then (u, v, EdgeType.time) else e)) q
      = pairMem E q := by
  unfold pairMem
  induction E with
  | nil => rfl
  | cons e E ih =>
    rw [List.map_cons, List.any_cons, List.any_cons, ih]
    congr 1
    by_cases hc : (e.1 == u && e.2.1 == v) = true
    · obtain ⟨h1, h2⟩ : e.1 = u ∧ e.2.1 = v := by
        simpa [Bool.and_eq_true] using hc
      rw [if_pos hc]
      simp [h1, h2]
    · rw [if_neg hc]

theorem timeApply_eq (ps : List (String × String))
    (E : List (String × String × EdgeType)) (hps : ps.Nodup) :
    timeApply E ps =
      E.map (fun e => if (e.1, e.2.1) ∈ ps then (e.1, e.2.1, EdgeType.time) else e)
      ++ (ps.filter (fun p => !pairMem E p)).map
          (fun p => (p.1, p.2, EdgeType.time)) := by
  induction ps generalizing E with
  | nil => simp [timeApply]
  | cons p ps ih =>
    obtain ⟨u, v⟩ := p
    rw [List.nodup_cons] at hps
    show timeApply (if E.any (fun e => e.1 == u && e.2.1 == v) then
        E.map (fun e => if e.1 == u && e.2.1 == v then (u, v, EdgeType.time) else e)
      else E ++ [(u, v, EdgeType.time)]) ps = _
    by_cases hpm : (E.any (fun e => e.1 == u && e.2.1 == v)) = true
    · rw [if_pos hpm, ih _ hps.2]
      have hmap : ((E.map (fun e => if e.1 == u && e.2.1 == v then
            (u, v, EdgeType.time) else e)).map
          (fun e => if (e.1, e.2.1) ∈ ps then (e.1, e.2.1, EdgeType.time) else e))
          = E.map (fun e => if (e.1, e.2.1) ∈ ((u, v) :: ps) then
              (e.1, e.2.1, EdgeType.time) else e) := by
        rw [List.map_map]
        apply List.map_congr_left
        intro e _
        simp only [Function.comp_apply]
        by_cases hc : (e.1 == u && e.2.1 == v) = true
        · obtain ⟨h1, h2⟩ : e.1 = u ∧ e.2.1 = v := by
            simpa [Bool.and_eq_true] using hc
          rw [if_pos hc]
          by_cases hin : ((u : String), v) ∈ ps
          · simp [h1, h2, hin]
          · simp [h1, h2, hin]
        · have hc2 : ¬ (((e.1 : String), e.2.1) = (u, v)) := by
            intro hx
            apply hc
            rw [Prod.ext_iff] at hx
            have h1 : e.1 = u := hx.1
            have h2 : e.2.1 = v := hx.2
            simp [h1, h2]
          rw [if_neg hc]
          by_cases hin : ((e.1 : String), e.2.1) ∈ ps
          · simp [hin, hc2]
          · simp [hin, hc2]
      have hfil : ps.filter (fun q =>
            !pairMem (E.map (fun e => if e.1 == u && e.2.1 == v then
              (u, v, EdgeType.time) else e)) q)
          = ps.filter (fun q => !pairMem E q) := by
        apply List.filter_congr
        intro q _
        rw [pairMem_retype]
      have hhead : (((u, v) :: ps).filter (fun q => !pairMem E q))
          = ps.filter (fun q => !pairMem E q) := by
        rw [List.filter_cons]
        have : (!pairMem E (u, v)) = false := by
          unfold pairMem
          simpa using hpm
        rw [this]
        simp
      rw [hmap, hfil, hhead]
    · rw [if_neg hpm, ih _ hps.2]
      rw [Bool.not_eq_true] at hpm
      have hfalse := List.any_eq_false.mp hpm
      have hmap : ((E ++ [(u, v, EdgeType.time)]).map
          (fun e => if (e.1, e.2.1) ∈ ps then (e.1, e.2.1, EdgeType.time) else e))
          = E.map (fun e => if (e.1, e.2.1) ∈ ((u, v) :: ps) then
              (e.1, e.2.1, EdgeType.time) else e) ++ [(u, v, EdgeType.time)] := by
        rw [List.map_append]
        congr 1
        · apply List.map_congr_left
          intro e he
          have hne : ¬ (((e.1 : String), e.2.1) = (u, v)) := by
            intro hx
            rw [Prod.ext_iff] at hx
            have h1 : e.1 = u := hx.1
            have h2 : e.2.1 = v := hx.2
            exact hfalse e he (by simp [h1, h2])
          by_cases hin : ((e.1 : String), e.2.1) ∈ ps
          · simp [hin, hne]
          · simp [hin, hne]
        · by_cases hin : ((u : String), v) ∈ ps
          · simp [hin]
          · simp [hin]
      have hfil : (ps.filter (fun q => !pairMem (E ++ [(u, v, EdgeType.time)]) q))
          = ps.filter (fun q => !pairMem E q) := by
        apply List.filter_congr
        intro q hq
        have hqp : q ≠ (u, v) := fun h => hps.1 (h ▸ hq)
        unfold pairMem
        rw [List.any_append]
        have hsingle : (([((u : String), v, EdgeType.time)]).any
            (fun e => e.1 == q.1 && e.2.1 == q.2)) = false := by
          simp only [List.any_cons, List.any_nil, Bool.or_false]
          obtain ⟨q1, q2⟩ := q
          by_cases h1 : u = q1
          · have h2 : v ≠ q2 := by
              intro h2
              exact hqp (by rw [h1, h2])
            simp [h2]
          · simp [h1]
        rw [hsingle, Bool.or_false]
      have hhead : (((u, v) :: ps).filter (fun q => !pairMem E q))
          = (u, v) :: ps.filter (fun q => !pairMem E q) := by
        rw [List.filter_cons]
        have : (!pairMem E (u, v)) = true := by
          unfold pairMem
          simpa using hpm
        rw [this]
        simp
      rw [hmap, hfil, hhead]
      simp

theorem pairMem_iff (E : List (String × String × EdgeType)) (u v : String) :
    pairMem E (u, v) = true ↔ ∃ e ∈ E, e.1 = u ∧ e.2.1 = v := by
  unfold pairMem
  rw [List.any_eq_true]
  constructor
  · rintro ⟨e, he, hc⟩
    exact ⟨e, he, by simpa [Bool.and_eq_true] using hc⟩
  · rintro ⟨e, he, h1, h2⟩
    exact ⟨e, he, by simp [h1, h2]⟩

theorem timePairList_mem (L : List Span) (u v : String) :
    ((u, v) ∈ timePairList L) ↔ ∃ i : Nat, ∃ h : i + 1 < L.length,
      (L.get ⟨i, by omega⟩).span_id = u ∧ (L.get ⟨i + 1, h⟩).span_id = v ∧
      0 < timeGap (L.get ⟨i, by omega⟩) (L.get ⟨i + 1, h⟩) ∧
      timeGap (L.get ⟨i, by omega⟩) (L.get ⟨i + 1, h⟩) ≤ 2 := by
  induction L with
  | nil => simp [timePairList]
  | cons a t ih =>
    cases t with
    | nil =>
      simp only [timePairList, List.not_mem_nil, false_iff, not_exists]
      intro i h
      simp at h
    | cons b rest =>
      show ((u, v) ∈ (if 0 < timeGap a b ∧ timeGap a b ≤ 2 then
          [(a.span_id, b.span_id)] else []) ++ timePairList (b :: rest)) ↔ _
      rw [List.mem_append, ih]
      constructor
      · rintro (h1 | ⟨i, h, h2, h3, h4, h5⟩)
        · by_cases hcond : 0 < timeGap a b ∧ timeGap a b ≤ 2
          · rw [if_pos hcond] at h1
            obtain ⟨hu, hv⟩ : a.span_id = u ∧ b.span_id = v := by
              have := List.mem_singleton.mp h1
              exact ⟨congrArg Prod.fst this.symm, congrArg Prod.snd this.symm⟩
            exact ⟨0, by simp, hu, hv, hcond.1, hcond.2⟩
          · rw [if_neg hcond] at h1
            simp at h1
        · refine ⟨i + 1, by simpa using h, ?_, ?_, ?_, ?_⟩
          · simpa using h2
          · simpa using h3
          · simpa using h4
          · simpa using h5
      · rintro ⟨i, h, h2, h3, h4, h5⟩
        cases i with
        | zero =>
          left
          have hga : 0 < timeGap a b := h4
          have hgb : timeGap a b ≤ 2 := h5
          rw [if_pos ⟨hga, hgb⟩]
          have hu : a.span_id = u := h2
          have hv : b.span_id = v := h3
          simp [← hu, ← hv]
        | succ i =>
          right
          refine ⟨i, by simpa using h, ?_, ?_, ?_, ?_⟩
          · simpa using h2
          · simpa using h3
          · simpa using h4
          · simpa using h5

theorem timePairList_snd_mem (L : List Span) :
    ∀ p ∈ timePairList L, p.2 ∈ L.tail.map Span.span_id := by
  induction L with
  | nil => simp [timePairList]
  | cons a t ih =>
    cases t with
    | nil => simp [timePairList]
    | cons b rest =>
      intro p hp
      have hp2 : p ∈ (if 0 < timeGap a b ∧ timeGap a b ≤ 2 then
          [(a.span_id, b.span_id)] else []) ++ timePairList (b :: rest) := hp
      rcases List.mem_append.mp hp2 with h1 | h1
      · by_cases hcond : 0 < timeGap a b ∧ timeGap a b ≤ 2
        · rw [if_pos hcond] at h1
          have := List.mem_singleton.mp h1
          rw [this]
          simp
        · rw [if_neg hcond] at h1
          simp at h1
      · have := ih p h1
        simp only [List.tail_cons] at this ⊢
        rcases List.mem_map.mp this with ⟨s, hs, hsid⟩
        exact List.mem_map.mpr ⟨s, by simp [hs], hsid⟩

theorem timePairList_nodup (L : List Span) (hnd : (L.map Span.span_id).Nodup) :
    (timePairList L).Nodup := by
  have hsnd : ((timePairList L).map Prod.snd).Nodup := by
    induction L with
    | nil => simp [timePairList]
    | cons a t ih =>
      cases t with
      | nil => simp [timePairList]
      | cons b rest =>
        rw [List.map_cons, List.nodup_cons] at hnd
        show ((((if 0 < timeGap a b ∧ timeGap a b ≤ 2 then
            [(a.span_id, b.span_id)] else []) ++ timePairList (b :: rest))).map
            Prod.snd).Nodup
        rw [List.map_append]
        have htail := ih hnd.2
        have hbnotin : b.span_id ∉ (timePairList (b :: rest)).map Prod.snd := by
          intro hmem
          rcases List.mem_map.mp hmem with ⟨p, hp, hps⟩
          have := timePairList_snd_mem (b :: rest) p hp
          rw [hps] at this
          rw [List.map_cons, List.nodup_cons] at hnd
          exact hnd.2.1 (by simpa using this)
        by_cases hcond : 0 < timeGap a b ∧ timeGap a b ≤ 2
        · rw [if_pos hcond]
          simp only [List.map_cons, List.map_nil, List.singleton_append,
            List.nodup_cons]
          exact ⟨hbnotin, htail⟩
        · rw [if_neg hcond]
          simpa using htail
  exact hsnd.of_map Prod.snd

theorem build_eq_passes (spans : List Span) :
    build_dependency_graph spans
      = timePass (causalPass spans (nodesPass spans)) (sortedSpans spans) := rfl

theorem sortedSpans_perm (spans : List Span) : (sortedSpans spans).Perm spans :=
  List.perm_insertionSort _ _

theorem sortedSpans_sorted (spans : List Span) :
    List.Sorted (fun a b => a.start_time ≤ b.start_time) (sortedSpans spans) :=
  List.sorted_insertionSort _ _

theorem sublist_orderedInsert {α : Type} (r : α → α → Prop) [DecidableRel r]
    (a : α) (l c : List α) (h : c.Sublist l) :
    c.Sublist (List.orderedInsert r a l) := by
  rw [List.orderedInsert_eq_take_drop]
  have h2 : c.Sublist (l.takeWhile (fun b => ¬ r a b)
      ++ l.dropWhile (fun b => ¬ r a b)) := by
    rw [List.takeWhile_append_dropWhile]
    exact h
  refine h2.trans ?_
  exact List.Sublist.append_left (List.sublist_cons_self _ _) _

theorem sublist_insertionSort {α : Type} (r : α → α → Prop) [DecidableRel r] :
    ∀ (l c : List α), c.Pairwise r → c.Sublist l →
      c.Sublist (List.insertionSort r l)
  | [], c, _, hsub => by simpa using hsub
  | a :: l, c, hpw, hsub => by
    show c.Sublist (List.orderedInsert r a (List.insertionSort r l))
    rcases List.sublist_cons_iff.mp hsub with h | ⟨c', rfl, hc'⟩
    · exact sublist_orderedInsert r a _ c (sublist_insertionSort r l c hpw h)
    · have hra : ∀ z ∈ c', r a z := (List.pairwise_cons.mp hpw).1
      have hpw' : c'.Pairwise r := (List.pairwise_cons.mp hpw).2
      have hc'' : c'.Sublist (List.insertionSort r l) :=
        sublist_insertionSort r l c' hpw' hc'
      rw [List.orderedInsert_eq_take_drop]
      have hc3 : c'.Sublist ((List.insertionSort r l).takeWhile (fun b => ¬ r a b)
          ++ (List.insertionSort r l).dropWhile (fun b => ¬ r a b)) := by
        rw [List.takeWhile_append_dropWhile]
        exact hc''
      obtain ⟨c1, c2, hc12, h1, h2⟩ := List.sublist_append_iff.mp hc3
      have hc1 : c1 = [] := by
        cases c1 with
        | nil => rfl
        | cons x xs =>
          exfalso
          have hx : x ∈ (List.insertionSort r l).takeWhile (fun b => ¬ r a b) :=
            h1.subset (by simp)
          have hnx : ¬ r a x := by simpa using List.mem_takeWhile_imp hx
          exact hnx (hra x (by simp [hc12]))
      subst hc1
      simp only [List.nil_append] at hc12
      subst hc12
      exact (h2.cons₂ a).trans (List.sublist_append_right _ _)

theorem sortedSpans_stable (spans : List Span) (a b : Span)
    (hsub : [a, b].Sublist spans) (hle : a.start_time ≤ b.start_time) :
    [a, b].Sublist (sortedSpans spans) :=
  sublist_insertionSort _ spans [a, b] (by simp [hle]) hsub

theorem nodesPass_edges (spans : List Span) : (nodesPass spans).edges = [] :=
  foldl_addNode_edges spans Graph.empty

theorem build_nodes_eq (spans : List Span)
    (hnd : (spans.map Span.span_id).Nodup) :
    (build_dependency_graph spans).nodes = (nodesPass spans).nodes := by
  rw [build_eq_passes]
  have h0 := nodesPass_nodeIds spans hnd
  have hn1 : ∀ s ∈ spans, s.span_id ∈ (nodesPass spans).nodeIds := by
    intro s hs
    rw [h0]
    exact List.mem_map_of_mem _ hs
  have hcn : (causalPass spans (nodesPass spans)).nodes = (nodesPass spans).nodes :=
    causalPass_nodes _ _ hn1
  have hcnIds : (causalPass spans (nodesPass spans)).nodeIds
      = (nodesPass spans).nodeIds := by
    unfold Graph.nodeIds
    rw [hcn]
  have htn := timePass_nodes (sortedSpans spans)
    (causalPass spans (nodesPass spans))
    (fun s hs => by
      rw [hcnIds]
      exact hn1 s ((sortedSpans_perm spans).subset hs))
  rw [htn, hcn]

theorem build_nodeIds (spans : List Span)
    (hnd : (spans.map Span.span_id).Nodup) :
    (build_dependency_graph spans).nodeIds = spans.map Span.span_id := by
  unfold Graph.nodeIds
  rw [build_nodes_eq spans hnd]
  exact nodesPass_nodeIds spans hnd

theorem build_edges_eq (spans : List Span)
    (hnd : (spans.map Span.span_id).Nodup) :
    (build_dependency_graph spans).edges
      = timeApply (causalEdgeList (spans.map Span.span_id) spans)
          (timePairList (sortedSpans spans)) := by
  rw [build_eq_passes]
  have h0 := nodesPass_nodeIds spans hnd
  have hn1 : ∀ s ∈ spans, s.span_id ∈ (nodesPass spans).nodeIds := by
    intro s hs
    rw [h0]
    exact List.mem_map_of_mem _ hs
  have hcn : (causalPass spans (nodesPass spans)).nodes = (nodesPass spans).nodes :=
    causalPass_nodes _ _ hn1
  have hcnIds : (causalPass spans (nodesPass spans)).nodeIds
      = (nodesPass spans).nodeIds := by
    unfold Graph.nodeIds
    rw [hcn]
  rw [timePass_edges (sortedSpans spans) _
    (fun s hs => by
      rw [hcnIds]
      exact hn1 s ((sortedSpans_perm spans).subset hs))]
  rw [causalPass_edges spans (nodesPass spans) hn1
    (fun s _ e he => by rw [nodesPass_edges] at he; cases he) hnd]
  rw [nodesPass_edges, h0]
  rfl

theorem build_edge_mem (spans : List Span)
    (hnd : (spans.map Span.span_id).Nodup) (u v : String) (t : EdgeType) :
    ((u, v, t) ∈ (build_dependency_graph spans).edges) ↔
      (((u, v) ∈ timePairList (sortedSpans spans)) ∧ t = EdgeType.time) ∨
      (((u, v) ∉ timePairList (sortedSpans spans)) ∧
        (u, v, t) ∈ causalEdgeList (spans.map Span.span_id) spans) := by
  have hpsnd : ((sortedSpans spans).map Span.span_id).Nodup :=
    (((sortedSpans_perm spans).map Span.span_id).nodup_iff).mpr hnd
  have hpnd := timePairList_nodup (sortedSpans spans) hpsnd
  rw [build_edges_eq spans hnd, timeApply_eq _ _ hpnd, List.mem_append]
  constructor
  · rintro (hmem | hmem)
    · rcases List.mem_map.mp hmem with ⟨e, he, hfe⟩
      by_cases hin : ((e.1 : String), e.2.1) ∈ timePairList (sortedSpans spans)
      · rw [if_pos hin] at hfe
        rw [Prod.ext_iff] at hfe
        have h1 : e.1 = u := hfe.1
        rw [Prod.ext_iff] at hfe
        have h2 : e.2.1 = v := hfe.2.1
        have h3 : EdgeType.time = t := hfe.2.2
        left
        rw [← h1, ← h2, ← h3]
        exact ⟨hin, rfl⟩
      · rw [if_neg hin] at hfe
        right
        refine ⟨?_, hfe ▸ he⟩
        intro hx
        apply hin
        rw [show ((e.1 : String), e.2.1) = (u, v) from by rw [hfe]]
        exact hx
    · rcases List.mem_map.mp hmem with ⟨p, hp, hfp⟩
      rw [List.mem_filter] at hp
      rw [Prod.ext_iff] at hfp
      have h1 : p.1 = u := hfp.1
      rw [Prod.ext_iff] at hfp
      have h2 : p.2 = v := hfp.2.1
      have h3 : EdgeType.time = t := hfp.2.2
      left
      refine ⟨?_, h3.symm⟩
      rw [← h1, ← h2]
      exact hp.1
  · rintro (⟨hin, rfl⟩ | ⟨hnin, hmem⟩)
    · by_cases hpm : pairMem (causalEdgeList (spans.map Span.span_id) spans) (u, v)
        = true
      · rcases (pairMem_iff _ _ _).mp hpm with ⟨e, he, h1, h2⟩
        left
        refine List.mem_map.mpr ⟨e, he, ?_⟩
        rw [if_pos (by rw [h1, h2]; exact hin), h1, h2]
      · right
        refine List.mem_map.mpr ⟨(u, v), List.mem_filter.mpr ⟨hin, by simp [hpm]⟩, rfl⟩
    · left
      refine List.mem_map.mpr ⟨(u, v, t), hmem, ?_⟩
      rw [if_neg ?_]
      exact hnin

theorem timePairList_iff_temporalPair (spans : List Span) (u v : String) :
    ((u, v) ∈ timePairList (sortedSpans spans)) ↔ temporalPair spans u v :=
  timePairList_mem (sortedSpans spans) u v

theorem causal_mem_iff (spans : List Span) (u v : String) (t : EdgeType) :
    ((u, v, t) ∈ causalEdgeList (spans.map Span.span_id) spans) ↔
      t = EdgeType.parent ∧ causalPair spans u v :=
  causalEdgeList_mem (spans.map Span.span_id) spans u v t

/-- **C7** (counterexample): the claim is wrong in two ways. (1) When a
parent/child pair is also a consecutive sorted pair with gap in `(0, 2]`
seconds, the later `add_edge(..., type='time')` overwrites the attribute
of the already-present `parent` edge, so no `parent`-typed edge remains:
for `spanRootA`/`spanChildB` (child declares parent `"a"`, 1 s apart) the
built graph has `[("a","b",time)]` and no parent edge. (2) A span whose
parent id is the empty string is skipped by the Python truthiness test
`if span.parent_span_id` even when a node with id `""` is present. -/
theorem parent_edge_retyped_counterexample :
    spanChildB.parent_span_id = some "a" ∧
    "a" ∈ [spanRootA, spanChildB].map Span.span_id ∧
    ("a", "b", EdgeType.parent) ∉ (build_dependency_graph [spanRootA, spanChildB]).edges ∧
    (build_dependency_graph [spanRootA, spanChildB]).edges = [("a", "b", EdgeType.time)] ∧
    spanEmptyChild.parent_span_id = some "" ∧
    "" ∈ [spanEmptyRoot, spanEmptyChild].map Span.span_id ∧
    (build_dependency_graph [spanEmptyRoot, spanEmptyChild]).edges = [] := by
  decide

/-- **C7** (amended): for a span list with distinct ids the Builder
creates exactly the node ids of the input, in order; for every span whose
parent id is non-null, non-empty and names a present node, an edge from
parent to child is in the graph — typed `parent` unless the pair is also
a consecutive close-in-time pair, in which case the edge was retyped
`time`; every `parent`-typed edge arises this way; and a span none of
whose declared parents are present receives no incoming `parent` edge. -/
theorem builder_nodes_and_causal_edges (spans : List Span)
    (hnd : (spans.map Span.span_id).Nodup) :
    (build_dependency_graph spans).nodeIds = spans.map Span.span_id ∧
    (∀ u v, causalPair spans u v →
      (temporalPair spans u v ∧
        (u, v, EdgeType.time) ∈ (build_dependency_graph spans).edges) ∨
      (¬ temporalPair spans u v ∧
        (u, v, EdgeType.parent) ∈ (build_dependency_graph spans).edges)) ∧
    (∀ u v, (u, v, EdgeType.parent) ∈ (build_dependency_graph spans).edges →
      causalPair spans u v) ∧
    (∀ s ∈ spans, (∀ p, s.parent_span_id = some p → p ∉ spans.map Span.span_id) →
      ∀ u, (u, s.span_id, EdgeType.parent) ∉ (build_dependency_graph spans).edges) := by
  have hpar : ∀ u v,
      (u, v, EdgeType.parent) ∈ (build_dependency_graph spans).edges →
      causalPair spans u v := by
    intro u v hmem
    rw [build_edge_mem spans hnd] at hmem
    rcases hmem with ⟨_, habs⟩ | ⟨_, hm⟩
    · exact absurd habs (by decide)
    · exact ((causal_mem_iff spans u v EdgeType.parent).mp hm).2
  refine ⟨build_nodeIds spans hnd, ?_, hpar, ?_⟩
  · intro u v hc
    by_cases ht : temporalPair spans u v
    · refine Or.inl ⟨ht, ?_⟩
      rw [build_edge_mem spans hnd]
      exact Or.inl ⟨(timePairList_iff_temporalPair spans u v).mpr ht, rfl⟩
    · refine Or.inr ⟨ht, ?_⟩
      rw [build_edge_mem spans hnd]
      refine Or.inr ⟨?_, (causal_mem_iff spans u v EdgeType.parent).mpr ⟨rfl, hc⟩⟩
      intro hx
      exact ht ((timePairList_iff_temporalPair spans u v).mp hx)
  · intro s hs horph u hmem
    obtain ⟨s2, hs2, hid, hp, _, hmemids⟩ := hpar u s.span_id hmem
    have hseq : s2 = s :=
      List.inj_on_of_nodup_map hnd hs2 hs hid
    rw [hseq] at hp
    exact horph u hp hmemids

/-- **C7** (witness): on `spanRootA` and `spanChildB` the ids are kept
and the parent/child pair, also a close temporal pair, yields the
retyped `time` edge. -/
theorem builder_nodes_and_causal_edges_witness :
    (build_dependency_graph [spanRootA, spanChildB]).nodeIds = ["a", "b"] ∧
    ("a", "b", EdgeType.time) ∈ (build_dependency_graph [spanRootA, spanChildB]).edges := by
  have h := builder_nodes_and_causal_edges [spanRootA, spanChildB] (by decide)
  have hc : causalPair [spanRootA, spanChildB] "a" "b" :=
    ⟨spanChildB, by simp, by decide, by decide, by decide, by decide⟩
  have ht : temporalPair [spanRootA, spanChildB] "a" "b" :=
    ⟨0, by decide, by decide, by decide, by decide, by decide⟩
  refine ⟨h.1.trans (by decide), ?_⟩
  rcases h.2.1 "a" "b" hc with ⟨_, hm⟩ | ⟨hnt, _⟩
  · exact hm
  · exact absurd ht hnt

/-- **C8**: the Builder sorts the spans by start time with a stable sort
(the embedding's insertion sort is a permutation, is sorted, and keeps
any originally ordered pair with non-decreasing start times in order),
and a `time` edge `(u, v)` is in the built graph exactly when `u`, `v`
are ids of consecutive sorted spans whose start gap is strictly positive
and at most 2 seconds. -/
theorem builder_time_edges (spans : List Span)
    (hnd : (spans.map Span.span_id).Nodup) :
    (sortedSpans spans).Perm spans ∧
    List.Sorted (fun a b => a.start_time ≤ b.start_time) (sortedSpans spans) ∧
    (∀ a b, [a, b].Sublist spans → a.start_time ≤ b.start_time →
      [a, b].Sublist (sortedSpans spans)) ∧
    (∀ u v, ((u, v, EdgeType.time) ∈ (build_dependency_graph spans).edges) ↔
      temporalPair spans u v) := by
  refine ⟨sortedSpans_perm spans, sortedSpans_sorted spans,
    fun a b => sortedSpans_stable spans a b, fun u v => ?_⟩
  rw [build_edge_mem spans hnd u v EdgeType.time,
    timePairList_iff_temporalPair spans u v]
  constructor
  · rintro (⟨h, _⟩ | ⟨_, hm⟩)
    · exact h
    · exact absurd ((causal_mem_iff spans u v EdgeType.time).mp hm).1 (by decide)
  · intro ht
    exact Or.inl ⟨ht, rfl⟩

/-- **C8** (witness): two root spans 1 second apart get the `time` edge,
and no reverse edge appears. -/
theorem builder_time_edges_witness :
    ("a", "b", EdgeType.time) ∈ (build_dependency_graph [spanRootA, spanLaterB]).edges ∧
    ("b", "a", EdgeType.time) ∉ (build_dependency_graph [spanRootA, spanLaterB]).edges := by
  have h := builder_time_edges [spanRootA, spanLaterB] (by decide)
  have ht : temporalPair [spanRootA, spanLaterB] "a" "b" :=
    ⟨0, by decide, by decide, by decide, by decide, by decide⟩
  exact ⟨(h.2.2.2 "a" "b").mpr ht, by decide⟩

/-- The `Rat.divInt` form of `timeGap` agrees with field division by
`10^6`, i.e. with the exact value of `total_seconds()`. -/
theorem timeGap_eq_div (a b : Span) :
    timeGap a b = ((b.start_time - a.start_time : Int) : ℚ) / 1000000 := by
  unfold timeGap
  rw [Rat.divInt_eq_div]
  norm_num

theorem topoAux_zero (g : Graph) (R : List String) :
    topoAux g 0 R = if R.isEmpty then some [] else none := rfl

theorem topoAux_succ (g : Graph) (fuel : Nat) (R : List String) :
    topoAux g (fuel + 1) R =
      match R.find? (fun v => !hasIncomingFrom g R v) with
      | none => if R.isEmpty then some [] else none
      | some v => (topoAux g fuel (R.erase v)).map (v :: ·) := rfl

theorem hasIncomingFrom_false_iff (g : Graph) (R : List String) (v : String) :
    hasIncomingFrom g R v = false ↔ ∀ u ∈ R, ¬ g.hasEdge u v := by
  unfold hasIncomingFrom
  rw [List.any_eq_false]
  constructor
  · intro h u hu het
    obtain ⟨t, hmem⟩ := het
    have h2 := h (u, v, t) hmem
    rw [Bool.not_eq_true, Bool.and_eq_false_iff] at h2
    rcases h2 with h2 | h2
    · rw [beq_eq_false_iff_ne] at h2
      exact h2 rfl
    · have h3 : ¬ (R.contains u = true) := by
        rw [h2]
        exact Bool.false_ne_true
      rw [contains_iff_mem] at h3
      exact h3 hu
  · intro h e he
    rw [Bool.not_eq_true, Bool.and_eq_false_iff]
    by_cases hv2 : e.2.1 = v
    · right
      by_cases hu : e.1 ∈ R
      · exfalso
        refine h e.1 hu ⟨e.2.2, ?_⟩
        rw [← hv2]
        exact he
      · cases hc : R.contains e.1
        · rfl
        · exact absurd ((contains_iff_mem).mp hc) hu
    · left
      rw [beq_eq_false_iff_ne]
      exact hv2

theorem topoAux_perm (g : Graph) :
    ∀ fuel R l, topoAux g fuel R = some l → l.Perm R := by
  intro fuel
  induction fuel with
  | zero =>
    intro R l h
    rw [topoAux_zero] at h
    split at h
    · rename_i hR
      cases h
      rw [List.isEmpty_iff] at hR
      rw [hR]
    · cases h
  | succ fuel ih =>
    intro R l h
    rw [topoAux_succ] at h
    split at h
    · split at h
      · rename_i hR
        cases h
        rw [List.isEmpty_iff] at hR
        rw [hR]
      · cases h
    · rename_i v hfind
      cases htail : topoAux g fuel (R.erase v) with
      | none =>
        rw [htail] at h
        cases h
      | some l2 =>
        rw [htail] at h
        have h2 : some (v :: l2) = some l := h
        cases h2
        have hv : v ∈ R := List.mem_of_find?_eq_some hfind
        exact ((ih _ _ htail).cons v).trans (List.perm_cons_erase hv).symm

theorem topoAux_sublist (g : Graph) :
    ∀ fuel R l, topoAux g fuel R = some l →
      ∀ u v, g.hasEdge u v → u ∈ R → v ∈ R → [u, v].Sublist l := by
  intro fuel
  induction fuel with
  | zero =>
    intro R l h u v he hu hv
    rw [topoAux_zero] at h
    split at h
    · rename_i hR
      rw [List.isEmpty_iff] at hR
      subst hR
      cases hu
    · cases h
  | succ fuel ih =>
    intro R l h u v he hu hv
    rw [topoAux_succ] at h
    split at h
    · split at h
      · rename_i hR
        rw [List.isEmpty_iff] at hR
        subst hR
        cases hu
      · cases h
    · rename_i w hfind
      cases htail : topoAux g fuel (R.erase w) with
      | none =>
        rw [htail] at h
        cases h
      | some l2 =>
        rw [htail] at h
        have h2 : some (w :: l2) = some l := h
        cases h2
        have hwpred := List.find?_some hfind
        have hwfalse : hasIncomingFrom g R w = false := by
          cases hx : hasIncomingFrom g R w
          · rfl
          · rw [hx] at hwpred
            cases hwpred
        have hnoin := (hasIncomingFrom_false_iff g R w).mp hwfalse
        by_cases hvw : v = w
        · subst hvw
          exact absurd he (hnoin u hu)
        · by_cases huw : u = w
          · subst huw
            have hvm : v ∈ l2 :=
              (topoAux_perm g fuel (R.erase u) l2 htail).mem_iff.mpr
                ((List.mem_erase_of_ne hvw).mpr hv)
            exact (List.singleton_sublist.mpr hvm).cons₂ u
          · have hsub := ih (R.erase w) l2 htail u v he
              ((List.mem_erase_of_ne huw).mpr hu)
              ((List.mem_erase_of_ne hvw).mpr hv)
            exact hsub.trans (List.sublist_cons_self w l2)

theorem exists_no_incoming (g : Graph) (hac : Acyclic g) (R : List String)
    (hne : R ≠ []) : ∃ v ∈ R, hasIncomingFrom g R v = false := by
  have hfin : Finite {x : String // x ∈ R} := (List.finite_toSet R).to_subtype
  have hirr : ∀ a : {x : String // x ∈ R},
      ¬ Relation.TransGen
        (fun a b : {x : String // x ∈ R} => g.hasEdge a.val b.val) a a := by
    intro a ha
    exact hac a.val (Relation.TransGen.lift Subtype.val (fun _ _ h => h) ha)
  haveI : IsIrrefl {x : String // x ∈ R}
      (Relation.TransGen
        (fun a b : {x : String // x ∈ R} => g.hasEdge a.val b.val)) :=
    ⟨fun a => hirr a⟩
  have htg : WellFounded (Relation.TransGen
      (fun a b : {x : String // x ∈ R} => g.hasEdge a.val b.val)) :=
    Finite.wellFounded_of_trans_of_irrefl _
  have hsubrel : Subrelation
      (fun a b : {x : String // x ∈ R} => g.hasEdge a.val b.val)
      (Relation.TransGen
        (fun a b : {x : String // x ∈ R} => g.hasEdge a.val b.val)) :=
    fun h => Relation.TransGen.single h
  have hwf : WellFounded
      (fun a b : {x : String // x ∈ R} => g.hasEdge a.val b.val) :=
    hsubrel.wf htg
  obtain ⟨a, hamem⟩ := List.exists_mem_of_ne_nil R hne
  obtain ⟨m, _, hmin⟩ := hwf.has_min Set.univ ⟨⟨a, hamem⟩, Set.mem_univ _⟩
  refine ⟨m.val, m.property, ?_⟩
  rw [hasIncomingFrom_false_iff]
  intro u hu he
  exact hmin ⟨u, hu⟩ (Set.mem_univ _) he

theorem topoAux_isSome (g : Graph) (hac : Acyclic g) :
    ∀ fuel R, R.length ≤ fuel → ∃ l, topoAux g fuel R = some l := by
  intro fuel
  induction fuel with
  | zero =>
    intro R hlen
    rw [Nat.le_zero, List.length_eq_zero] at hlen
    subst hlen
    exact ⟨[], rfl⟩
  | succ fuel ih =>
    intro R hlen
    rw [topoAux_succ]
    by_cases hR : R = []
    · subst hR
      exact ⟨[], rfl⟩
    · obtain ⟨v, hv, hflag⟩ := exists_no_incoming g hac R hR
      have hfind : (R.find? (fun v => !hasIncomingFrom g R v)).isSome := by
        rw [List.find?_isSome]
        refine ⟨v, hv, ?_⟩
        show (!hasIncomingFrom g R v) = true
        rw [hflag]
        rfl
      obtain ⟨w, hw⟩ := Option.isSome_iff_exists.mp hfind
      rw [hw]
      show ∃ l, (topoAux g fuel (R.erase w)).map (w :: ·) = some l
      have hwmem := List.mem_of_find?_eq_some hw
      have hlen2 : (R.erase w).length ≤ fuel := by
        rw [List.length_erase_of_mem hwmem]
        omega
      obtain ⟨l2, hl2⟩ := ih (R.erase w) hlen2
      refine ⟨w :: l2, ?_⟩
      rw [hl2]
      rfl

theorem transGen_mem_right (g : Graph) (R : List String) (a b : String)
    (h : Relation.TransGen (fun x y => g.hasEdge x y ∧ x ∈ R ∧ y ∈ R) a b) :
    b ∈ R := by
  induction h with
  | single h1 => exact h1.2.2
  | tail _ h1 _ => exact h1.2.2

theorem transGen_target_ne (g : Graph) (R : List String) (v : String)
    (himv : ∀ u ∈ R, ¬ g.hasEdge u v) (a b : String)
    (hab : Relation.TransGen (fun x y => g.hasEdge x y ∧ x ∈ R ∧ y ∈ R) a b) :
    b ≠ v := by
  induction hab with
  | single h1 =>
    intro hbv
    subst hbv
    exact himv a h1.2.1 h1.1
  | tail _ h1 _ =>
    intro hbv
    subst hbv
    exact himv _ h1.2.1 h1.1

theorem transGen_erase (g : Graph) (R : List String) (v : String)
    (himv : ∀ u ∈ R, ¬ g.hasEdge u v) (a b : String)
    (hab : Relation.TransGen (fun x y => g.hasEdge x y ∧ x ∈ R ∧ y ∈ R) a b)
    (hav : a ≠ v) :
    Relation.TransGen
      (fun x y => g.hasEdge x y ∧ x ∈ R.erase v ∧ y ∈ R.erase v) a b := by
  induction hab with
  | single h1 =>
    refine Relation.TransGen.single
      ⟨h1.1, (List.mem_erase_of_ne hav).mpr h1.2.1,
        (List.mem_erase_of_ne ?_).mpr h1.2.2⟩
    intro hbv
    exact himv _ h1.2.1 (hbv ▸ h1.1)
  | tail hab h1 ih =>
    have hcv := transGen_target_ne g R v himv _ _ hab
    refine Relation.TransGen.tail ih
      ⟨h1.1, (List.mem_erase_of_ne hcv).mpr h1.2.1,
        (List.mem_erase_of_ne ?_).mpr h1.2.2⟩
    intro hdv
    exact himv _ h1.2.1 (hdv ▸ h1.1)

theorem topoAux_none (g : Graph) :
    ∀ fuel R, (∃ a, Relation.TransGen
        (fun x y => g.hasEdge x y ∧ x ∈ R ∧ y ∈ R) a a) →
      topoAux g fuel R = none := by
  intro fuel
  induction fuel with
  | zero =>
    intro R h
    obtain ⟨a, ha⟩ := h
    rw [topoAux_zero, if_neg]
    intro hR
    rw [List.isEmpty_iff] at hR
    have haR := transGen_mem_right g R a a ha
    rw [hR] at haR
    cases haR
  | succ fuel ih =>
    intro R h
    obtain ⟨a, ha⟩ := h
    rw [topoAux_succ]
    cases hfind : R.find? (fun v => !hasIncomingFrom g R v) with
    | none =>
      show (if R.isEmpty then some [] else none) = none
      rw [if_neg]
      intro hR
      rw [List.isEmpty_iff] at hR
      have haR := transGen_mem_right g R a a ha
      rw [hR] at haR
      cases haR
    | some v =>
      show (topoAux g fuel (R.erase v)).map (v :: ·) = none
      have hpred := List.find?_some hfind
      have hflag : hasIncomingFrom g R v = false := by
        cases hx : hasIncomingFrom g R v
        · rfl
        · rw [hx] at hpred
          cases hpred
      have himv := (hasIncomingFrom_false_iff g R v).mp hflag
      have hane := transGen_target_ne g R v himv a a ha
      rw [ih (R.erase v) ⟨a, transGen_erase g R v himv a a ha hane⟩]
      rfl

theorem nodeRecord_isSome (g : Graph) (hwf : GraphWF g) (v : String)
    (hv : v ∈ g.nodeIds) : (nodeRecord g v).isSome := by
  unfold nodeRecord
  cases hlk : g.lookupSpan v with
  | none =>
    have h2 := hwf.2.2 v hv
    rw [hlk] at h2
    cases h2
  | some span =>
    cases hpred : g.predecessors v with
    | nil => rfl
    | cons p ps =>
      have hp : p ∈ g.predecessors v := by
        rw [hpred]
        exact List.mem_cons_self _ _
      unfold Graph.predecessors at hp
      rw [List.mem_map] at hp
      obtain ⟨e, he, hep⟩ := hp
      have hpn : p ∈ g.nodeIds := hep ▸ (hwf.2.1 e (List.mem_filter.mp he).1).1
      have hlk2 := hwf.2.2 p hpn
      show (match g.lookupSpan p with
        | none => none
        | some ps2 => some (format_edge span (some ps2))).isSome = true
      cases hlk3 : g.lookupSpan p with
      | none =>
        rw [hlk3] at hlk2
        cases hlk2
      | some ps2 => rfl

theorem mapM_isSome {α β : Type} (l : List α) (f : α → Option β)
    (h : ∀ v ∈ l, (f v).isSome) :
    ∃ recs, l.mapM f = some recs ∧ recs.length = l.length := by
  induction l with
  | nil => exact ⟨[], rfl, rfl⟩
  | cons a t ih =>
    obtain ⟨b, hb⟩ := Option.isSome_iff_exists.mp (h a (List.mem_cons_self a t))
    obtain ⟨recs, hr, hlen⟩ := ih (fun v hv => h v (List.mem_cons_of_mem a hv))
    refine ⟨b :: recs, ?_, by simp [hlen]⟩
    rw [List.mapM_cons, hb, hr]
    rfl

/-- **C4**: on every well-formed dependency graph serialization is total:
`generate_sequence` returns (never the `KeyError` `none`) exactly one
record per node; the order used is a permutation of the nodes; on an
acyclic graph `topological_sort` succeeds and the order respects every
edge; on a cyclic graph `topological_sort` reports `NetworkXUnfeasible`
(`none`) and the fallback is the node insertion order. -/
theorem serializer_total_and_ordered (g : Graph) (hwf : GraphWF g) :
    (∃ recs, generate_sequence g = some recs ∧
      recs.length = g.nodeIds.length) ∧
    (orderedIds g).Perm g.nodeIds ∧
    (Acyclic g → ∃ ord, topological_sort g = some ord ∧
      ∀ e ∈ g.edges, [e.1, e.2.1].Sublist ord) ∧
    (¬ Acyclic g → topological_sort g = none ∧ orderedIds g = g.nodeIds) := by
  have hperm : (orderedIds g).Perm g.nodeIds := by
    unfold orderedIds
    cases hts : topological_sort g with
    | none => exact List.Perm.refl _
    | some l => exact topoAux_perm g g.nodes.length g.nodeIds l hts
  refine ⟨?_, hperm, ?_, ?_⟩
  · have hrec : ∀ v ∈ orderedIds g, (nodeRecord g v).isSome := by
      intro v hv
      exact nodeRecord_isSome g hwf v (hperm.mem_iff.mp hv)
    obtain ⟨recs, hr, hlen⟩ := mapM_isSome (orderedIds g) (nodeRecord g) hrec
    exact ⟨recs, hr, hlen.trans hperm.length_eq⟩
  · intro hac
    obtain ⟨ord, hord⟩ := topoAux_isSome g hac g.nodes.length g.nodeIds
      (le_of_eq (by rw [Graph.nodeIds, List.length_map]))
    refine ⟨ord, hord, ?_⟩
    intro e he
    refine topoAux_sublist g g.nodes.length g.nodeIds ord hord e.1 e.2.1
      ⟨e.2.2, ?_⟩ (hwf.2.1 e he).1 (hwf.2.1 e he).2
    exact he
  · intro hnac
    unfold Acyclic at hnac
    push_neg at hnac
    obtain ⟨a, ha⟩ := hnac
    have ha2 : Relation.TransGen
        (fun x y => g.hasEdge x y ∧ x ∈ g.nodeIds ∧ y ∈ g.nodeIds) a a := by
      refine Relation.TransGen.mono ?_ ha
      intro x y hxy
      obtain ⟨t, hm⟩ := hxy
      have hend := hwf.2.1 (x, y, t) hm
      exact ⟨⟨t, hm⟩, hend.1, hend.2⟩
    have hnone : topological_sort g = none :=
      topoAux_none g g.nodes.length g.nodeIds ⟨a, ha2⟩
    refine ⟨hnone, ?_⟩
    unfold orderedIds
    rw [hnone]

/-- **C4** (witness): the spec's own cycle scenario: a `parent` edge
`a → b` and a `time` edge `b → a`.  Serialization still returns one
record per node, `topological_sort` reports the cycle, and the fallback
order is the insertion order `["a", "b"]`. -/
theorem serializer_total_and_ordered_witness :
    (∃ recs,
      generate_sequence (build_dependency_graph [spanCycleA, spanCycleB]) = some recs ∧
      recs.length = 2) ∧
    topological_sort (build_dependency_graph [spanCycleA, spanCycleB]) = none ∧
    orderedIds (build_dependency_graph [spanCycleA, spanCycleB]) = ["a", "b"] := by
  have h := serializer_total_and_ordered
    (build_dependency_graph [spanCycleA, spanCycleB])
    ⟨by decide, by decide, by decide⟩
  have hcyc : ¬ Acyclic (build_dependency_graph [spanCycleA, spanCycleB]) := by
    intro hac
    have hstep1 : (build_dependency_graph [spanCycleA, spanCycleB]).hasEdge "a" "b" :=
      ⟨EdgeType.parent, by decide⟩
    have hstep2 : (build_dependency_graph [spanCycleA, spanCycleB]).hasEdge "b" "a" :=
      ⟨EdgeType.time, by decide⟩
    exact hac "a" (Relation.TransGen.tail (Relation.TransGen.single hstep1) hstep2)
  obtain ⟨recs, hr, hlen⟩ := h.1
  obtain ⟨hnone, hfb⟩ := h.2.2.2 hcyc
  exact ⟨⟨recs, hr, hlen.trans (by decide)⟩, hnone, hfb.trans (by decide)⟩

theorem filter_target_eq_of_nodup (E : List (String × String × EdgeType))
    (v : String) (hnd : (E.map (fun e => e.2.1)).Nodup) (u : String)
    (t : EdgeType) (hmem : (u, v, t) ∈ E) :
    E.filter (fun e => e.2.1 == v) = [(u, v, t)] := by
  induction E with
  | nil => cases hmem
  | cons e E ih =>
    rw [List.map_cons, List.nodup_cons] at hnd
    rw [List.filter_cons]
    rcases List.mem_cons.mp hmem with heq | hmem2
    · subst heq
      rw [if_pos (by simp)]
      have hrest : E.filter (fun e2 => e2.2.1 == v) = [] := by
        rw [List.filter_eq_nil_iff]
        intro x hx hxv
        rw [beq_iff_eq] at hxv
        exact hnd.1 (hxv ▸ List.mem_map_of_mem (fun e2 => e2.2.1) hx)
      rw [hrest]
    · have hne : (e.2.1 == v) = false := by
        rw [beq_eq_false_iff_ne]
        intro hev
        refine hnd.1 ?_
        rw [hev]
        exact List.mem_map_of_mem (fun e2 => e2.2.1) hmem2
      rw [if_neg (by rw [hne]; exact Bool.false_ne_true)]
      exact ih hnd.2 hmem2

theorem build_lookup_isSome (spans : List Span)
    (hnd : (spans.map Span.span_id).Nodup) (v : String)
    (hv : v ∈ (build_dependency_graph spans).nodeIds) :
    ((build_dependency_graph spans).lookupSpan v).isSome := by
  have hnodes := build_nodes_eq spans hnd
  have hlk : (build_dependency_graph spans).lookupSpan v
      = (nodesPass spans).lookupSpan v := by
    unfold Graph.lookupSpan
    rw [hnodes]
  rw [hlk]
  refine foldl_addNode_lookup spans Graph.empty ?_ v ?_
  · intro x hx
    cases hx
  · have hids : (build_dependency_graph spans).nodeIds = (nodesPass spans).nodeIds := by
      unfold Graph.nodeIds
      rw [hnodes]
    rw [hids] at hv
    exact hv

theorem build_edge_mem_nodeIds (spans : List Span)
    (hnd : (spans.map Span.span_id).Nodup) (u v : String) (t : EdgeType)
    (hmem : (u, v, t) ∈ (build_dependency_graph spans).edges) :
    u ∈ spans.map Span.span_id ∧ v ∈ spans.map Span.span_id := by
  rw [build_edge_mem spans hnd] at hmem
  rcases hmem with ⟨hin, _⟩ | ⟨_, hm⟩
  · rw [timePairList_mem] at hin
    obtain ⟨i, hlen, h1, h2, _, _⟩ := hin
    constructor
    · rw [← h1]
      exact ((sortedSpans_perm spans).map Span.span_id).subset
        (List.mem_map_of_mem _ (List.get_mem _ _ _))
    · rw [← h2]
      exact ((sortedSpans_perm spans).map Span.span_id).subset
        (List.mem_map_of_mem _ (List.get_mem _ _ _))
  · rw [causalEdgeList_mem] at hm
    obtain ⟨_, s, hs, hsv, _, _, humem⟩ := hm
    exact ⟨humem, hsv ▸ List.mem_map_of_mem _ hs⟩

theorem build_parent_first_predecessor (spans : List Span)
    (hnd : (spans.map Span.span_id).Nodup) (u v : String)
    (hmem : (u, v, EdgeType.parent) ∈ (build_dependency_graph spans).edges) :
    firstPredecessor (build_dependency_graph spans) v = some u := by
  have hpsnd : ((sortedSpans spans).map Span.span_id).Nodup :=
    (((sortedSpans_perm spans).map Span.span_id).nodup_iff).mpr hnd
  have hpnd := timePairList_nodup (sortedSpans spans) hpsnd
  have hedges := build_edges_eq spans hnd
  rw [timeApply_eq _ _ hpnd] at hedges
  have hmem2 := hmem
  rw [build_edge_mem spans hnd] at hmem2
  rcases hmem2 with ⟨_, habs⟩ | ⟨hnp, hcm⟩
  · exact absurd habs (by decide)
  have hEm : (u, v, EdgeType.parent) ∈ (causalEdgeList (spans.map Span.span_id) spans).map
      (fun e => if (e.1, e.2.1) ∈ timePairList (sortedSpans spans)
        then (e.1, e.2.1, EdgeType.time) else e) :=
    List.mem_map.mpr ⟨(u, v, EdgeType.parent), hcm, if_neg hnp⟩
  have hsnd2 : (((causalEdgeList (spans.map Span.span_id) spans).map
      (fun e => if (e.1, e.2.1) ∈ timePairList (sortedSpans spans)
        then (e.1, e.2.1, EdgeType.time) else e)).map (fun e => e.2.1)).Nodup := by
    rw [List.map_map]
    have hsame : (causalEdgeList (spans.map Span.span_id) spans).map
        ((fun e => e.2.1) ∘ (fun e => if (e.1, e.2.1) ∈ timePairList (sortedSpans spans)
          then (e.1, e.2.1, EdgeType.time) else e))
        = (causalEdgeList (spans.map Span.span_id) spans).map (fun e => e.2.1) := by
      refine List.map_congr_left ?_
      intro e he
      by_cases hc : (e.1, e.2.1) ∈ timePairList (sortedSpans spans)
      · simp [Function.comp, hc]
      · simp [Function.comp, hc]
    rw [hsame]
    exact (causalEdgeList_snd_sublist _ spans).nodup hnd
  have hfilter := filter_target_eq_of_nodup _ v hsnd2 u EdgeType.parent hEm
  unfold firstPredecessor Graph.predecessors
  rw [hedges, List.filter_append, hfilter]
  rfl

theorem nodeRecord_eq (g : Graph) (v : String) (sv : Span)
    (hsv : g.lookupSpan v = some sv) :
    nodeRecord g v = match (g.predecessors v).head? with
      | none => some (format_edge sv none)
      | some p => match g.lookupSpan p with
        | none => none
        | some sp => some (format_edge sv (some sp)) := by
  unfold nodeRecord
  rw [hsv]
  show (match g.predecessors v with
    | [] => some (format_edge sv none)
    | p :: _ => match g.lookupSpan p with
      | none => none
      | some sp => some (format_edge sv (some sp))) = _
  cases hpred : g.predecessors v with
  | nil => rfl
  | cons p ps => rfl

/-- **C2** (counterexample): `graph.predecessors` ignores edge types, so
incoming `time` edges do determine the source field.  With two root
spans 1 second apart (no parent declarations at all), node `"b"` has no
incoming `parent` edge, yet its record's source is `"svcA"`, the service
of its `time`-predecessor, not the `"Client"` sentinel the claim
requires. -/
theorem source_field_time_edge_counterexample :
    (build_dependency_graph [spanRootA, spanLaterB]).edges
      = [("a", "b", EdgeType.time)] ∧
    Option.map (List.map EdgeRecord.source)
      (generate_sequence (build_dependency_graph [spanRootA, spanLaterB]))
      = some ["Client", "svcA"] := by
  decide

/-- **C2** (amended): for every node of a built graph, `nodeRecord`
returns a record whose source is `"Client"` when the node has no
predecessor at all (of either type), and otherwise the service name of
the first-inserted predecessor; every `parent`-typed edge into the node
does name that first predecessor (causal edges are inserted before the
purely temporal ones and at most one causal edge targets a node), but a
`time`-typed first predecessor determines the source the same way. -/
theorem source_field_first_predecessor (spans : List Span)
    (hnd : (spans.map Span.span_id).Nodup) (v : String)
    (hv : v ∈ (build_dependency_graph spans).nodeIds) :
    (∃ rec, nodeRecord (build_dependency_graph spans) v = some rec ∧
      ((firstPredecessor (build_dependency_graph spans) v = none ∧
          rec.source = "Client") ∨
        (∃ u su, firstPredecessor (build_dependency_graph spans) v = some u ∧
          (build_dependency_graph spans).lookupSpan u = some su ∧
          rec.source = su.service_name))) ∧
    (∀ u, (u, v, EdgeType.parent) ∈ (build_dependency_graph spans).edges →
      firstPredecessor (build_dependency_graph spans) v = some u) := by
  refine ⟨?_, fun u hmem => build_parent_first_predecessor spans hnd u v hmem⟩
  obtain ⟨sv, hsv⟩ := Option.isSome_iff_exists.mp (build_lookup_isSome spans hnd v hv)
  rw [nodeRecord_eq _ v sv hsv]
  cases hpred : ((build_dependency_graph spans).predecessors v).head? with
  | none => exact ⟨format_edge sv none, rfl, Or.inl ⟨hpred, rfl⟩⟩
  | some p =>
    have hpmem : p ∈ (build_dependency_graph spans).predecessors v := by
      cases hl : (build_dependency_graph spans).predecessors v with
      | nil =>
        rw [hl] at hpred
        cases hpred
      | cons q t =>
        rw [hl] at hpred
        have hqp : some q = some p := hpred
        cases hqp
        exact List.mem_cons_self _ _
    have hedge : ∃ e ∈ (build_dependency_graph spans).edges, e.1 = p := by
      unfold Graph.predecessors at hpmem
      rw [List.mem_map] at hpmem
      obtain ⟨e, he, hep⟩ := hpmem
      exact ⟨e, (List.mem_filter.mp he).1, hep⟩
    obtain ⟨e, he, hep⟩ := hedge
    have hpn : p ∈ (build_dependency_graph spans).nodeIds := by
      rw [build_nodeIds spans hnd]
      have he2 : (e.1, e.2.1, e.2.2) ∈ (build_dependency_graph spans).edges := he
      exact hep ▸ (build_edge_mem_nodeIds spans hnd e.1 e.2.1 e.2.2 he2).1
    obtain ⟨sp, hsp⟩ := Option.isSome_iff_exists.mp (build_lookup_isSome spans hnd p hpn)
    refine ⟨format_edge sv (some sp), ?_, Or.inr ⟨p, sp, hpred, hsp, rfl⟩⟩
    show (match (build_dependency_graph spans).lookupSpan p with
      | none => none
      | some sp => some (format_edge sv (some sp))) = some (format_edge sv (some sp))
    rw [hsp]

/-- **C2** (witness): for a parent/child pair 10 seconds apart the
`parent` edge survives, it is the first predecessor, and the child's
record source is the parent's service name. -/
theorem source_field_first_predecessor_witness :
    firstPredecessor (build_dependency_graph [spanRootA, spanFarB]) "b" = some "a" ∧
    ∃ rec, nodeRecord (build_dependency_graph [spanRootA, spanFarB]) "b" = some rec ∧
      rec.source = "svcA" := by
  have h := source_field_first_predecessor [spanRootA, spanFarB] (by decide) "b" (by decide)
  have hfp : firstPredecessor (build_dependency_graph [spanRootA, spanFarB]) "b"
      = some "a" := h.2 "a" (by decide)
  refine ⟨hfp, ?_⟩
  obtain ⟨rec, hrec, hsrc⟩ := h.1
  rcases hsrc with ⟨hnone, _⟩ | ⟨u, su, hu, hsu, hs⟩
  · rw [hfp] at hnone
    cases hnone
  · refine ⟨rec, hrec, ?_⟩
    rw [hs]
    rw [hfp] at hu
    have hu2 : some "a" = some u := hu
    cases hu2
    have hlk : (build_dependency_graph [spanRootA, spanFarB]).lookupSpan "a"
        = some spanRootA := by decide
    rw [hlk] at hsu
    cases hsu
    rfl
